import Mathlib

/-!
Verification of the heddle agent harness against its specification.

Each namespace shallow-embeds one component of the TypeScript source:

* `Js`       — a model of JavaScript runtime values (JSON documents).
* `Registry` — `src/tools/registry.ts` (`ToolRegistry.execute`).
* `Protocol` — `src/ipc/protocol.ts` (`checkCompatibility`) and the
  `init` handler of `src/headless/index.ts`.
* `Agent`    — `src/agent/loop.ts` (`hashToolCalls`, `isDoomLoop`,
  `runAgentLoop`, `runAgentLoopStreaming`).
* `Retry`    — the retry logic of `src/provider/openrouter.ts`.
* `Overrides` — `src/provider/overrides.ts` (`validateOverrides`).
* `Jsonl`    — `src/session/jsonl.ts` (journal append / load).
* `Headless` — the send/cancel state machine of `src/headless/index.ts`.

Stateful code is embedded as explicit state passing; JavaScript async
generators are embedded as functions producing the full (finite) list of
yielded events; runtime string parsers (`JSON.parse`, `Number`,
`Date.parse`, `parseInt`) are abstracted as parameters or as pre-parsed
inductive data, since they are host-runtime builtins, not repository code.
-/

/- ===================================================================== -/
/- ============================ DEFINITIONS ============================ -/
/- ===================================================================== -/

namespace Js

mutual
/-- JavaScript runtime values, as far as the validated override objects and
journal lines need them.  `undef` models the absence of a property
(`undefined`); numbers are modelled as rationals (`NaN`/`±Infinity` are not
representable, and none of the verified code paths distinguishes them from
other out-of-range numbers). -/
inductive Val where
  | undef
  | null
  | bool (b : Bool)
  | num (q : ℚ)
  | str (s : String)
  | arr (elems : ValList)
  | obj (fields : ValObj)
deriving DecidableEq, Repr
/-- A JavaScript array of values. -/
inductive ValList where
  | nil
  | cons (hd : Val) (tl : ValList)
deriving DecidableEq, Repr
/-- A JavaScript object: ordered fields with distinct keys
(insertion order, as JS preserves it). -/
inductive ValObj where
  | nil
  | cons (key : String) (val : Val) (tl : ValObj)
deriving DecidableEq, Repr
end

/-- Property read `o[k]`: the value at the first matching key, `undefined`
when the key is absent. -/
def ValObj.get : ValObj → String → Val
  | .nil, _ => .undef
  | .cons k v tl, key => if k = key then v else tl.get key

/-- Does the object have the key? -/
def ValObj.hasKey : ValObj → String → Bool
  | .nil, _ => false
  | .cons k _ tl, key => k == key || tl.hasKey key

/-- Property write `o[k] = v` (also the semantics of the spread
`\x7b...o, k: v\x7d`): overwrite in place when the key exists, else append a new
field at the end. -/
def ValObj.set : ValObj → String → Val → ValObj
  | .nil, key, v => .cons key v .nil
  | .cons k w tl, key, v =>
      if k = key then .cons k v tl else .cons k w (tl.set key v)

/-- The length of a JS array. -/
def ValList.length : ValList → ℕ
  | .nil => 0
  | .cons _ tl => tl.length + 1

/-- `Array.prototype.every(x => typeof x === "string")`. -/
def ValList.allStrings : ValList → Bool
  | .nil => true
  | .cons (.str _) tl => tl.allStrings
  | .cons _ _ => false

/-- Build a JS array of strings. -/
def ValList.ofStrings : List String → ValList
  | [] => .nil
  | s :: tl => .cons (.str s) (ValList.ofStrings tl)

/-- JavaScript truthiness, on the values we model. -/
def Val.truthy : Val → Bool
  | .undef => false
  | .null => false
  | .bool b => b
  | .num q => q != 0
  | .str s => s != ""
  | .arr _ => true
  | .obj _ => true

end Js

namespace Js

/-- Append a field at the very end of an object (what the spread
`\x7b...message, timestamp\x7d` does when the key is not already present). -/
def ValObj.snoc : ValObj → String → Val → ValObj
  | .nil, k, v => .cons k v .nil
  | .cons k1 v1 tl, k, v => .cons k1 v1 (tl.snoc k v)

end Js

namespace Jsonl

/-- The journal file, modelled at line granularity: each line holds one
JSON object (the runtime `JSON.stringify`/`JSON.parse` of a line is the
identity on this view, and `appendFile` appends one line); `none` is a
missing file.  Blank-line filtering and `trim` are identities here because
every written line is one serialised object. -/
def appendLine (file : Option (List Js.ValObj)) (data : Js.ValObj) :
    Option (List Js.ValObj) :=
  some (file.getD [] ++ [data])

/-- `writeSessionMeta` from `src/session/jsonl.ts` (the `SessionMeta`
argument always carries `type = "session_meta"`; that is a hypothesis of
the theorems below). -/
def writeSessionMeta (file : Option (List Js.ValObj)) (meta : Js.ValObj) :
    Option (List Js.ValObj) :=
  appendLine file meta

/-- `appendMessage` from `src/session/jsonl.ts`: the spread
`\x7b...message, timestamp: new Date().toISOString()\x7d`. -/
def appendMessage (file : Option (List Js.ValObj)) (message : Js.ValObj)
    (timestamp : String) : Option (List Js.ValObj) :=
  appendLine file (message.set "timestamp" (Js.Val.str timestamp))

/-- A sequence of `appendMessage` calls with their write-time
timestamps. -/
def appendMessages (file : Option (List Js.ValObj)) :
    List (Js.ValObj × String) → Option (List Js.ValObj)
  | [] => file
  | (m, ts) :: rest => appendMessages (appendMessage file m ts) rest

/-- `loadSession` from `src/session/jsonl.ts`: missing file → `[]`; else
parse every line and drop the objects whose `type` is `"session_meta"`. -/
def loadSession : Option (List Js.ValObj) → List Js.ValObj
  | none => []
  | some objs =>
    objs.filter (fun o => !(o.get "type" == Js.Val.str "session_meta"))

end Jsonl

namespace Registry

/-- What a tool's `execute(parsedArgs)` does: return a string, or throw an
error whose extracted message (`err.message` / `String(err)`) is `message`. -/
inductive ExecOutcome where
  | ok (result : String)
  | thrown (message : String)
deriving DecidableEq, Repr

/-- A registered tool, reduced to the data `ToolRegistry.execute` consumes:
its name and its execution behaviour. -/
structure HeddleTool where
  name : String
  execute : Js.Val → ExecOutcome

/-- `ToolRegistry.execute(name, argsJson)` from `src/tools/registry.ts`.
`tools` models the name-keyed `Map` (register enforces distinct names);
`parse` models `JSON.parse` (`none` = the parse throws).  `Except.error`
models an exception thrown out of `execute`; `Except.ok` a returned string. -/
def execute (parse : String → Option Js.Val) (tools : List HeddleTool)
    (name argsJson : String) : Except String String :=
  match tools.find? (fun t => t.name == name) with
  | none => .error ("Unknown tool: " ++ name)
  | some tool =>
    match parse argsJson with
    | none => .ok ("Error: Invalid JSON arguments: " ++ argsJson)
    | some parsed =>
      match tool.execute parsed with
      | .ok s => .ok s
      | .thrown msg => .ok ("Error: " ++ msg)

end Registry

namespace Protocol

/-- A parsed protocol version triple (`parseSemver` output; the JS
`parseInt`-based string parsing is a runtime builtin and is abstracted by
working on parsed triples). -/
structure Semver where
  major : ℕ
  minor : ℕ
  patch : ℕ
deriving DecidableEq, Repr

/-- Render a version triple the way the mismatch messages do. -/
def Semver.render (v : Semver) : String :=
  toString v.major ++ "." ++ toString v.minor ++ "." ++ toString v.patch

/-- Compatibility levels of `checkCompatibility`. -/
inductive CompatLevel where
  | exact
  | patch
  | minor
  | major
  | incompatible
deriving DecidableEq, Repr

/-- Result shape of `checkCompatibility`. -/
structure CompatResult where
  compatible : Bool
  level : CompatLevel
  warn : Option String
deriving DecidableEq, Repr

/-- `checkCompatibility` from `src/ipc/protocol.ts`, on parsed versions
(`server` is the adapter's own `PROTOCOL_VERSION`). -/
def checkCompatibility (server client : Semver) : CompatResult :=
  if server.major ≠ client.major then
    { compatible := false, level := .incompatible,
      warn := some ("Major version mismatch: client=" ++ client.render
        ++ ", server=" ++ server.render) }
  else if server.minor ≠ client.minor then
    { compatible := true, level := .minor,
      warn := some ("Minor version mismatch: client=" ++ client.render
        ++ ", server=" ++ server.render) }
  else if server.patch ≠ client.patch then
    { compatible := true, level := .patch, warn := none }
  else
    { compatible := true, level := .exact, warn := none }

end Protocol

namespace Headless

/-- `usage` aggregate carried on events and results. -/
structure UsageTriple where
  prompt_tokens : ℕ
  completion_tokens : ℕ
  total_tokens : ℕ
deriving DecidableEq, Repr

/-- A normalized error (`normalizeError` output).  The regex / JSON
dissection of the raw message happens in host-runtime builtins, so the
send handler below is parameterised over the normalizer. -/
structure NormalizedError where
  error : String
  code : String
  provider : Option String
  details : Option String
deriving DecidableEq, Repr

/-- `WorkerEvent` — the payload of `type:"event"` responses, as produced by
`mapAgentEvent`. -/
inductive WorkerEvent where
  | content_delta (text : String)
  | tool_start (name : String) (args : Js.Val)
  | tool_end (name : String) (result_preview : String)
  | usage (u : UsageTriple)
  | error (error : String) (code : Option String) (provider : Option String)
      (details : Option String)
deriving DecidableEq, Repr

/-- `IpcResponse` — one stdout line of the adapter. -/
inductive Resp where
  | init_ok (id : String) (session_id : String)
      (protocol_version : Protocol.Semver)
  | event (e : WorkerEvent)
  | result (id : String) (status : String) (response : Option String)
      (tool_calls_made : List (String × Js.Val)) (usage : Option UsageTriple)
      (iterations : ℕ) (error : Option String)
  | status_ok (id : String) (model : String) (messages_count : ℕ)
      (session_id : String) (active : Bool)
  | shutdown_ok (id : String)
deriving DecidableEq, Repr

/-- `buildResult` from `src/ipc/codec.ts`. -/
def buildResult (id : String) (status : String) (response : Option String)
    (toolCallsMade : List (String × Js.Val)) (usage : Option UsageTriple)
    (iterations : ℕ) (error : Option String) : Resp :=
  .result id status response toolCallsMade usage iterations error

/-- `buildError` from `src/ipc/codec.ts`. -/
def buildError (id : Option String) (error : String) : Resp :=
  .result (id.getD "unknown") "error" none [] none 0 (some error)

/-- `wrapEvent` from `src/ipc/codec.ts`. -/
def wrapEvent (e : WorkerEvent) : Resp :=
  .event e

/-- The part of an `init` request that `handleInit` consumes
(`config` is passed through to `createSession`, abstracted below). -/
structure InitRequest where
  id : String
  protocol_version : Option Protocol.Semver

/-- Observable effects of `handleInit`: stdout lines, a process exit (with
its code) if any, and whether `createSession` was invoked at all. -/
structure InitEffects where
  out : List Resp
  exitCode : Option ℕ
  setupAttempted : Bool
deriving DecidableEq, Repr

/-- The tail of `handleInit`: `createSession` + `init_ok` / error result.
`setup` models the outcome of `createSession` (session id, or the thrown
failure message). -/
def handleInitSetup (own : Protocol.Semver) (setup : Except String String)
    (req : InitRequest) : InitEffects :=
  match setup with
  | .ok sid =>
      { out := [Resp.init_ok req.id sid own], exitCode := none,
        setupAttempted := true }
  | .error e =>
      { out := [buildError (some req.id) e], exitCode := none,
        setupAttempted := true }

/-- `handleInit` from `src/headless/index.ts`.  On an incompatible
protocol version it writes one error result and exits 1 without invoking
`createSession`; the compatible-with-warning branch only logs at debug
(no stdout line). -/
def handleInit (own : Protocol.Semver) (setup : Except String String)
    (req : InitRequest) : InitEffects :=
  match req.protocol_version with
  | some v =>
    let compat := Protocol.checkCompatibility own v
    if !compat.compatible then
      { out := [buildResult req.id "error" none [] none 0
          (some "protocol_version_mismatch")],
        exitCode := some 1, setupAttempted := false }
    else
      handleInitSetup own setup req
  | none => handleInitSetup own setup req

end Headless

namespace Retry

/-- The `Retry-After` response header, pre-classified by the runtime string
parsers the source applies to it (`Number(header)`, then `Date.parse`):
absent (or empty, which is falsy), a numeric value (seconds — the source
accepts any number, fractional or negative), an HTTP-date (as absolute epoch
milliseconds), or a string neither parser accepts. -/
inductive RetryAfterHeader where
  | absent
  | numeric (seconds : ℚ)
  | httpDate (epochMs : ℤ)
  | garbage
deriving DecidableEq, Repr

/-- `RetryConfig` after `getRetryConfig` has applied the defaults
(its optional fields `?? 3` / `?? 1000` are resolved there). -/
structure RetryConfig where
  maxRetries : ℕ
  baseDelayMs : ℚ
deriving DecidableEq, Repr

/-- The `retry` field of `ProviderConfig`: `false`, absent, or a partial
`RetryConfig`. -/
inductive RetrySetting where
  | disabled
  | unset
  | custom (maxRetries : Option ℕ) (baseDelayMs : Option ℚ)
deriving DecidableEq, Repr

/-- `getRetryConfig` from `src/provider/openrouter.ts`
(defaults: 3 retries, 1000 ms base delay). -/
def getRetryConfig : RetrySetting → Option RetryConfig
  | .disabled => none
  | .unset => some { maxRetries := 3, baseDelayMs := 1000 }
  | .custom mr bd =>
      some { maxRetries := mr.getD 3, baseDelayMs := bd.getD 1000 }

/-- `parseRetryAfter` from `src/provider/openrouter.ts`: seconds × 1000,
or `max(0, date − now)` for an HTTP-date, else `null`. -/
def parseRetryAfter (now : ℤ) : RetryAfterHeader → Option ℚ
  | .absent => none
  | .numeric s => some (s * 1000)
  | .httpDate t => some (max 0 ((t : ℚ) - (now : ℚ)))
  | .garbage => none

/-- `getDelay` from `src/provider/openrouter.ts`. -/
def getDelay (attempt : ℕ) (retryAfterMs : Option ℚ) (baseDelayMs : ℚ) : ℚ :=
  match retryAfterMs with
  | some ms => ms
  | none => baseDelayMs * 2 ^ attempt

/-- One `fetch` result, reduced to what the retry loop inspects. -/
structure HttpResponse where
  status : ℕ
  retryAfter : RetryAfterHeader
  body : String
deriving DecidableEq, Repr

/-- The `for` loop body of `fetchWithRetry`: `responses` supplies the result
of the i-th `fetch`; the returned list is the sleeps performed (ms, in
order).  `none` models running past the supplied responses (unreachable
when `responses.length > maxRetries`). -/
def fetchWithRetryAux (cfg : Option RetryConfig) (now : ℤ) (maxRetries : ℕ) :
    ℕ → List HttpResponse → Option (HttpResponse × List ℚ)
  | _, [] => none
  | attempt, r :: rest =>
    if r.status ≠ 429 ∨ cfg = none ∨ attempt = maxRetries then
      some (r, [])
    else
      match cfg with
      | none => some (r, [])
      | some c =>
        let retryAfterMs := parseRetryAfter now r.retryAfter
        let delay := getDelay attempt retryAfterMs c.baseDelayMs
        match fetchWithRetryAux cfg now maxRetries (attempt + 1) rest with
        | none => none
        | some (resp, sleeps) => some (resp, delay :: sleeps)

/-- `fetchWithRetry` from `src/provider/openrouter.ts`:
`maxRetries = retryConfig?.maxRetries ?? 0`, attempts counted from 0. -/
def fetchWithRetry (retry : RetrySetting) (now : ℤ)
    (responses : List HttpResponse) : Option (HttpResponse × List ℚ) :=
  let cfg := getRetryConfig retry
  fetchWithRetryAux cfg now ((cfg.map (·.maxRetries)).getD 0) 0 responses

/-- The delay the SPEC prescribes for a retry (claim wording): the
`Retry-After` value converted to milliseconds when it parses as a number of
seconds or as an HTTP-date (clamped by `max(0, target − now)`), and
`baseDelayMs · 2 ^ attempt` otherwise. -/
def specDelay (now : ℤ) (h : RetryAfterHeader) (baseDelayMs : ℚ)
    (attempt : ℕ) : ℚ :=
  match h with
  | .numeric s => s * 1000
  | .httpDate t => max 0 ((t : ℚ) - (now : ℚ))
  | _ => baseDelayMs * 2 ^ attempt

end Retry

namespace Agent

/-- `function` payload of a tool call. -/
structure FunctionCall where
  name : String
  arguments : String
deriving DecidableEq, Repr

/-- `ToolCall` from `src/types.ts` (`type` is always the literal
`"function"` and is omitted from the model). -/
structure ToolCall where
  id : String
  function : FunctionCall
deriving DecidableEq, Repr

/-- `Usage` token counts. -/
structure Usage where
  prompt_tokens : ℕ
  completion_tokens : ℕ
  total_tokens : ℕ
deriving DecidableEq, Repr

/-- `AssistantMessage`: `tool_calls = []` models the absent field (the
source only attaches `tool_calls` when the list is non-empty, and reads it
through `?.length`, which treats absent and empty alike). -/
structure AssistantMessage where
  content : Option String
  tool_calls : List ToolCall
deriving DecidableEq, Repr

/-- `Message` from `src/types.ts`. -/
inductive Message where
  | system (content : String)
  | user (content : String)
  | assistant (msg : AssistantMessage)
  | tool (tool_call_id : String) (content : String)
deriving DecidableEq, Repr

/-- `AgentEvent` from `src/agent/types.ts`; `Error` objects are carried by
their message string. -/
inductive AgentEvent where
  | assistant_message (message : AssistantMessage)
  | content_delta (text : String)
  | tool_start (name : String) (call : ToolCall)
  | tool_end (name : String) (result : String) (call : ToolCall)
  | usage (u : Usage)
  | loop_detected (count : ℕ)
  | error (message : String)
deriving DecidableEq, Repr

/-- `normalizedArgs` inside `hashToolCalls`: `jsonNorm` models the runtime
composite `JSON.stringify(JSON.parse ·)` (`none` = the parse throws, in
which case the raw argument string is used). -/
def normalizedArgs (jsonNorm : String → Option String) (args : String) :
    String :=
  match jsonNorm args with
  | some s => s
  | none => args

/-- `hashToolCalls` from `src/agent/loop.ts`. -/
def hashToolCalls (jsonNorm : String → Option String)
    (toolCalls : List FunctionCall) : String :=
  String.intercalate "|"
    (toolCalls.map (fun tc =>
      tc.name ++ ":" ++ normalizedArgs jsonNorm tc.arguments))

/-- `isDoomLoop` from `src/agent/loop.ts`
(`recentHashes.slice(-threshold).every(h => h === last)`). -/
def isDoomLoop (recentHashes : List String) (threshold : ℕ) : Bool :=
  if recentHashes.length < threshold then false
  else
    (recentHashes.drop (recentHashes.length - threshold)).all
      (fun h => recentHashes.getLast? == some h)

/-- One `choice` of a non-streaming completion (its `message` fields are
inlined: `content` and `tool_calls`, `[]` modelling absent/empty). -/
structure Choice where
  content : Option String
  tool_calls : List ToolCall
deriving DecidableEq, Repr

/-- A non-streaming `ChatCompletionResponse`, reduced to what the loop
reads. -/
structure Response where
  choices : List Choice
  usage : Option Usage
deriving DecidableEq, Repr

/-- Result of the tool-execution `for` loop of an iteration: the
`tool_start`/`tool_end` events yielded, the collected tool messages, and
the exception propagated out of `registry.execute`, if any (in which case
the collected tool messages are discarded — the source pushes them only
after the whole loop). -/
def execCalls (exec : String → String → Except String String) :
    List ToolCall → List AgentEvent × List Message × Option String
  | [] => ([], [], none)
  | call :: rest =>
    match exec call.function.name call.function.arguments with
    | .error e => ([.tool_start call.function.name call], [], some e)
    | .ok result =>
      let r := execCalls exec rest
      (.tool_start call.function.name call
         :: .tool_end call.function.name result call :: r.1,
       .tool call.id result :: r.2.1,
       r.2.2)

/-- The observable outcome of one whole loop run: the events yielded, the
final conversation, how many provider responses (streams) were consumed,
and the exception propagated out of the generator, if any. -/
structure RunResult where
  events : List AgentEvent
  messages : List Message
  consumed : ℕ
  threw : Option String
deriving DecidableEq, Repr

/-- The `for` iteration of `runAgentLoop` from `src/agent/loop.ts`
(the variant with usage events and doom-loop detection), with the fuel
argument counting the remaining iterations.  `responses` supplies the
successive `provider.send` results; exhausting it models a rejected send
(exception out of the generator). -/
def runAgentLoopAux (jsonNorm : String → Option String)
    (exec : String → String → Except String String)
    (maxIterations doomThreshold : ℕ) :
    ℕ → List Response → List Message → List String → RunResult
  | 0, _, msgs, _ =>
    { events := [.error ("Max iterations (" ++ toString maxIterations
        ++ ") reached — possible infinite loop")],
      messages := msgs, consumed := 0, threw := none }
  | _ + 1, [], msgs, _ =>
    { events := [], messages := msgs, consumed := 0,
      threw := some "No more provider responses" }
  | fuel + 1, response :: rest, msgs, recentHashes =>
    let usageEvents : List AgentEvent :=
      match response.usage with
      | some u => [.usage u]
      | none => []
    match response.choices.head? with
    | none =>
      { events := usageEvents ++ [.error "No choice in response"],
        messages := msgs, consumed := 1, threw := none }
    | some choice =>
      let assistantMsg : AssistantMessage :=
        { content := choice.content, tool_calls := choice.tool_calls }
      let msgs1 := msgs ++ [Message.assistant assistantMsg]
      if choice.tool_calls.isEmpty then
        { events := usageEvents ++ [.assistant_message assistantMsg],
          messages := msgs1, consumed := 1, threw := none }
      else
        match execCalls exec choice.tool_calls with
        | (execEvents, _, some e) =>
          { events := usageEvents
              ++ .assistant_message assistantMsg :: execEvents,
            messages := msgs1, consumed := 1, threw := some e }
        | (execEvents, toolMsgs, none) =>
          let msgs2 := msgs1 ++ toolMsgs
          let hash := hashToolCalls jsonNorm
            (choice.tool_calls.map (·.function))
          let pushed := recentHashes ++ [hash]
          let trimmed :=
            if pushed.length > doomThreshold then pushed.drop 1 else pushed
          if isDoomLoop trimmed doomThreshold then
            { events := usageEvents
                ++ .assistant_message assistantMsg :: execEvents
                ++ [.loop_detected doomThreshold],
              messages := msgs2, consumed := 1, threw := none }
          else
            let r := runAgentLoopAux jsonNorm exec maxIterations
              doomThreshold fuel rest msgs2 trimmed
            { events := usageEvents
                ++ .assistant_message assistantMsg :: execEvents ++ r.events,
              messages := r.messages, consumed := r.consumed + 1,
              threw := r.threw }

/-- `runAgentLoop` (non-streaming) from `src/agent/loop.ts`; option
defaults are `maxIterations = 20`, `doomLoopThreshold = 3`. -/
def runAgentLoop (jsonNorm : String → Option String)
    (exec : String → String → Except String String)
    (maxIterations doomThreshold : ℕ) (responses : List Response)
    (messages : List Message) : RunResult :=
  runAgentLoopAux jsonNorm exec maxIterations doomThreshold maxIterations
    responses messages []

/-- A `delta.tool_calls[i]` fragment of a streaming chunk. -/
structure DeltaFunction where
  name : Option String
  arguments : Option String
deriving DecidableEq, Repr

/-- One incremental tool-call fragment, keyed by `index`. -/
structure DeltaToolCall where
  index : ℕ
  id : Option String
  function : Option DeltaFunction
deriving DecidableEq, Repr

/-- The `delta` of a streaming chunk choice (`tool_calls = []` models the
absent field). -/
structure Delta where
  content : Option String
  tool_calls : List DeltaToolCall
deriving DecidableEq, Repr

/-- One `choice` of a streaming chunk. -/
structure ChunkChoice where
  delta : Delta
deriving DecidableEq, Repr

/-- A `StreamChunk`, reduced to what the loop reads. -/
structure Chunk where
  choices : List ChunkChoice
  usage : Option Usage
deriving DecidableEq, Repr

/-- A partial tool call being assembled (`{ id: "", name: "", arguments: "" }`
initially). -/
structure Entry where
  id : String
  name : String
  arguments : String
deriving DecidableEq, Repr

/-- JS truthiness of an optional string field (`if (tc.id)`, etc.):
present and non-empty. -/
def strTruthy : Option String → Bool
  | some s => s != ""
  | none => false

/-- Apply one fragment to an assembly entry: `id` last-writer-wins when
truthy, `name`/`arguments` concatenated when truthy. -/
def applyDeltaToolCall (e : Entry) (tc : DeltaToolCall) : Entry :=
  let e1 := if strTruthy tc.id then { e with id := tc.id.getD "" } else e
  let nameFrag := tc.function.bind DeltaFunction.name
  let e2 := if strTruthy nameFrag then
      { e1 with name := e1.name ++ nameFrag.getD "" } else e1
  let argFrag := tc.function.bind DeltaFunction.arguments
  if strTruthy argFrag then
    { e2 with arguments := e2.arguments ++ argFrag.getD "" } else e2

/-- `assembledToolCalls.get(tc.index)` / create-if-absent / mutate: the
`Map` is modelled as an insertion-ordered association list with distinct
keys. -/
def upsertEntry : List (ℕ × Entry) → DeltaToolCall → List (ℕ × Entry)
  | [], tc => [(tc.index, applyDeltaToolCall ⟨"", "", ""⟩ tc)]
  | (i, e) :: rest, tc =>
    if i = tc.index then (i, applyDeltaToolCall e tc) :: rest
    else (i, e) :: upsertEntry rest tc

/-- The per-remote-call stream-assembly state. -/
structure StreamState where
  contentParts : String
  entries : List (ℕ × Entry)
  streamUsage : Option Usage
deriving DecidableEq, Repr

/-- The initial stream-assembly state of an iteration. -/
def initialStreamState : StreamState :=
  { contentParts := "", entries := [], streamUsage := none }

/-- The body of `for await (const chunk of provider.stream(...))`:
one chunk updates the state and may yield `content_delta` events.
A chunk without a first choice is skipped entirely (`if (!choice)
continue`, which also skips its `usage`). -/
def processChunk (st : StreamState) (c : Chunk) :
    StreamState × List AgentEvent :=
  match c.choices.head? with
  | none => (st, [])
  | some choice =>
    let delta := choice.delta
    let contentEvents : List AgentEvent :=
      if strTruthy delta.content then
        [.content_delta (delta.content.getD "")] else []
    let content1 :=
      if strTruthy delta.content then
        st.contentParts ++ delta.content.getD "" else st.contentParts
    let entries1 := delta.tool_calls.foldl upsertEntry st.entries
    let usage1 :=
      match c.usage with
      | some u => some u
      | none => st.streamUsage
    ({ contentParts := content1, entries := entries1,
       streamUsage := usage1 }, contentEvents)

/-- Consume a stream from a given assembly state: apply `processChunk` to
each chunk in order, accumulating the `content_delta` events in yield
order. -/
def assembleIterationFrom (st : StreamState) :
    List Chunk → StreamState × List AgentEvent
  | [] => (st, [])
  | c :: rest =>
    let r := processChunk st c
    let g := assembleIterationFrom r.1 rest
    (g.1, r.2 ++ g.2)

/-- Consume a whole stream starting from the fresh per-iteration state. -/
def assembleIteration (chunks : List Chunk) :
    StreamState × List AgentEvent :=
  assembleIterationFrom initialStreamState chunks

/-- `[...assembledToolCalls.entries()].sort(([a],[b]) => a - b)`:
sort the entries by their integer index key. -/
def sortEntries (entries : List (ℕ × Entry)) : List (ℕ × Entry) :=
  entries.mergeSort (fun a b => a.1 ≤ b.1)

/-- Build the assembled `ToolCall` list of an iteration. -/
def assembledToolCallList (st : StreamState) : List ToolCall :=
  (sortEntries st.entries).map
    (fun p => { id := p.2.id, function := ⟨p.2.name, p.2.arguments⟩ })

/-- The assembled assistant message of one streaming iteration
(`contentParts || null`, index-sorted tool calls). -/
def assembledMessage (chunks : List Chunk) : AssistantMessage :=
  let st := (assembleIteration chunks).1
  { content := if st.contentParts = "" then none else some st.contentParts,
    tool_calls := assembledToolCallList st }

/-- The `for` iteration of `runAgentLoopStreaming` from
`src/agent/loop.ts`; `streams` supplies the chunk sequence of each
successive `provider.stream` call. -/
def runAgentLoopStreamingAux (jsonNorm : String → Option String)
    (exec : String → String → Except String String)
    (maxIterations doomThreshold : ℕ) :
    ℕ → List (List Chunk) → List Message → List String → RunResult
  | 0, _, msgs, _ =>
    { events := [.error ("Max iterations (" ++ toString maxIterations
        ++ ") reached — possible infinite loop")],
      messages := msgs, consumed := 0, threw := none }
  | _ + 1, [], msgs, _ =>
    { events := [], messages := msgs, consumed := 0,
      threw := some "No more provider responses" }
  | fuel + 1, chunks :: rest, msgs, recentHashes =>
    let st := (assembleIteration chunks).1
    let deltaEvents := (assembleIteration chunks).2
    let toolCalls := assembledToolCallList st
    let assistantMsg := assembledMessage chunks
    let usageEvents : List AgentEvent :=
      match st.streamUsage with
      | some u => [.usage u]
      | none => []
    let headEvents := deltaEvents
      ++ .assistant_message assistantMsg :: usageEvents
    let msgs1 := msgs ++ [Message.assistant assistantMsg]
    if toolCalls.isEmpty then
      { events := headEvents, messages := msgs1, consumed := 1,
        threw := none }
    else
      match execCalls exec toolCalls with
      | (execEvents, _, some e) =>
        { events := headEvents ++ execEvents,
          messages := msgs1, consumed := 1, threw := some e }
      | (execEvents, toolMsgs, none) =>
        let msgs2 := msgs1 ++ toolMsgs
        let hash := hashToolCalls jsonNorm (toolCalls.map (·.function))
        let pushed := recentHashes ++ [hash]
        let trimmed :=
          if pushed.length > doomThreshold then pushed.drop 1 else pushed
        if isDoomLoop trimmed doomThreshold then
          { events := headEvents ++ execEvents ++ [.loop_detected doomThreshold],
            messages := msgs2, consumed := 1, threw := none }
        else
          let r := runAgentLoopStreamingAux jsonNorm exec maxIterations
            doomThreshold fuel rest msgs2 trimmed
          { events := headEvents ++ execEvents ++ r.events,
            messages := r.messages, consumed := r.consumed + 1,
            threw := r.threw }

/-- `runAgentLoopStreaming` from `src/agent/loop.ts`; option defaults are
`maxIterations = 20`, `doomLoopThreshold = 3`. -/
def runAgentLoopStreaming (jsonNorm : String → Option String)
    (exec : String → String → Except String String)
    (maxIterations doomThreshold : ℕ) (streams : List (List Chunk))
    (messages : List Message) : RunResult :=
  runAgentLoopStreamingAux jsonNorm exec maxIterations doomThreshold
    maxIterations streams messages []

/-- Claim C2's ordering property, as the streaming loop satisfies it:
scanning left to right, every `usage` event immediately follows an
`assistant_message` event (in particular no `usage` precedes its
iteration's `assistant_message`). -/
def usageWellPlaced : List AgentEvent → Bool
  | [] => true
  | .assistant_message _ :: .usage _ :: rest => usageWellPlaced rest
  | .usage _ :: _ => false
  | _ :: rest => usageWellPlaced rest

/-- The ordering the non-streaming loop actually satisfies: every `usage`
event is immediately followed by that iteration's `assistant_message` (or
by its "No choice in response" error event). -/
def usageBeforeHead : List AgentEvent → Bool
  | [] => true
  | .usage _ :: rest =>
    (match rest.head? with
     | some (.assistant_message _) => true
     | some (.error _) => true
     | _ => false) && usageBeforeHead rest
  | _ :: rest => usageBeforeHead rest

/-- A tool-calling iteration: the response has a first choice and that
choice carries at least one tool call. -/
def isToolCalling (r : Response) : Bool :=
  match r.choices.head? with
  | some c => !c.tool_calls.isEmpty
  | none => false

/-- The fingerprint of a non-streaming response's tool calls (claim C3
wording: per-call strings `<name>:<normalizedArgs>` joined by `|`). -/
def responseFingerprint (jsonNorm : String → Option String) (r : Response) :
    String :=
  hashToolCalls jsonNorm
    ((match r.choices.head? with
      | some c => c.tool_calls
      | none => []).map ToolCall.function)

/-- The fingerprint of a streaming iteration's assembled tool calls. -/
def streamFingerprint (jsonNorm : String → Option String)
    (chunks : List Chunk) : String :=
  hashToolCalls jsonNorm
    ((assembledToolCallList (assembleIteration chunks).1).map
      ToolCall.function)

/-- The sliding window of the last (at most) `T` fingerprints of a
history. -/
def recentWindow (T : ℕ) (hs : List String) : List String :=
  hs.drop (hs.length - T)

/-- The window of the last `T` fingerprints right after (0-based)
iteration `k` of the fingerprint sequence `gs`. -/
def window (gs : List String) (T k : ℕ) : List String :=
  (gs.take (k + 1)).drop (k + 1 - T)

/-- All fingerprints in the list are byte-equal. -/
def AllSame (l : List String) : Prop :=
  ∀ x ∈ l, ∀ y ∈ l, x = y

instance : DecidablePred AllSame := fun l => by
  unfold AllSame
  infer_instance

/-- Claim C3's detection condition at iteration `k` of the fingerprint
sequence `gs`: at least `T` tool-calling iterations have completed and the
last `T` fingerprints are byte-equal. -/
def WindowEqual (gs : List String) (T k : ℕ) : Prop :=
  T ≤ k + 1 ∧ AllSame (window gs T k)

instance (gs : List String) (T k : ℕ) : Decidable (WindowEqual gs T k) := by
  unfold WindowEqual
  infer_instance

/-- Events that are neither `usage` nor `assistant_message`. -/
def neutralEvent : AgentEvent → Bool
  | .usage _ => false
  | .assistant_message _ => false
  | _ => true

/-- Events that are not `usage`. -/
def nonUsageEvent : AgentEvent → Bool
  | .usage _ => false
  | _ => true

/-- Concatenation of a list of strings, in order (spec wording: "the
concatenation, in arrival order, of all fragments"). -/
def strConcat : List String → String
  | [] => ""
  | s :: rest => s ++ strConcat rest

/-- Spec wording for C4: the `delta.content` fragments an iteration's
chunks surface, in arrival order (a chunk without a first choice
surfaces nothing). -/
def contentFragments (chunks : List Chunk) : List String :=
  chunks.map (fun c =>
    match c.choices.head? with
    | some ch => ch.delta.content.getD ""
    | none => "")

/-- Spec wording for C4: the assembled content is the fragment
concatenation, or `null` when that concatenation is empty. -/
def specStreamContent (chunks : List Chunk) : Option String :=
  if strConcat (contentFragments chunks) = "" then none
  else some (strConcat (contentFragments chunks))

/-- Spec wording for C4: the `delta.tool_calls` fragments an iteration's
chunks surface, in arrival order. -/
def fragmentsOf : List Chunk → List DeltaToolCall
  | [] => []
  | c :: rest =>
    (match c.choices.head? with
     | some ch => ch.delta.tool_calls
     | none => []) ++ fragmentsOf rest

/-- The fragments addressed to a given tool-call index, in arrival
order. -/
def fragmentsFor (chunks : List Chunk) (idx : ℕ) : List DeltaToolCall :=
  (fragmentsOf chunks).filter (fun tc => tc.index = idx)

/-- The last non-empty `id` fragment of a fragment list (default `d`
when none is non-empty). -/
def lastIdFrom (d : String) : List DeltaToolCall → String
  | [] => d
  | tc :: rest => lastIdFrom (if strTruthy tc.id then tc.id.getD "" else d) rest

/-- The `name` string a fragment contributes (empty when absent). -/
def nameFragment (tc : DeltaToolCall) : String :=
  (tc.function.bind DeltaFunction.name).getD ""

/-- The `arguments` string a fragment contributes (empty when absent). -/
def argumentFragment (tc : DeltaToolCall) : String :=
  (tc.function.bind DeltaFunction.arguments).getD ""

/-- Spec wording for C4: the entry a fragment list accumulates — `id`
last-non-empty-writer-wins, `name`/`arguments` concatenated in order. -/
def specEntry (fs : List DeltaToolCall) : Entry :=
  { id := lastIdFrom "" fs,
    name := strConcat (fs.map nameFragment),
    arguments := strConcat (fs.map argumentFragment) }

/-- The distinct values of a list in first-occurrence order (the key set
of an insertion-ordered `Map`). -/
def firstOccs : List ℕ → List ℕ
  | [] => []
  | i :: rest => i :: (firstOccs rest).filter (fun j => j ≠ i)

/-- Spec wording for C4: the tool-call indices used by an iteration,
sorted numerically. -/
def specSortedIndices (chunks : List Chunk) : List ℕ :=
  (firstOccs ((fragmentsOf chunks).map DeltaToolCall.index)).mergeSort
    (fun a b => a ≤ b)

/-- Spec wording for C4: the assembled tool calls — one per used index,
sorted by index, with the accumulated id/name/arguments of that index's
fragments. -/
def specStreamToolCalls (chunks : List Chunk) : List ToolCall :=
  (specSortedIndices chunks).map (fun idx =>
    { id := (specEntry (fragmentsFor chunks idx)).id,
      function := ⟨(specEntry (fragmentsFor chunks idx)).name,
                   (specEntry (fragmentsFor chunks idx)).arguments⟩ })

end Agent

namespace Overrides

/-- One conditional assignment of `validateOverrides` from
`src/provider/overrides.ts`: the result field's key, and the filter
applied to the raw field's value (`none` = the guard fails and nothing is
assigned; `some v` = `result[key] = v`). -/
structure FieldRule where
  key : String
  accept : Js.Val → Option Js.Val

/-- The sequence of conditional assignments, applied in source order to
the initially empty `result` object: since every rule has a distinct key,
each passing assignment appends one fresh field, in order. -/
def applyRules (raw : Js.ValObj) : List FieldRule → Js.ValObj
  | [] => .nil
  | rule :: rest =>
    match rule.accept (raw.get rule.key) with
    | some v => .cons rule.key v (applyRules raw rest)
    | none => applyRules raw rest

/-- `typeof x === "string"` pass-through (`model`). -/
def acceptString : Js.Val → Option Js.Val
  | .str s => some (.str s)
  | _ => none

/-- `session_id`: a string of at most 128 characters. -/
def acceptSessionId : Js.Val → Option Js.Val
  | .str s => if s.length ≤ 128 then some (.str s) else none
  | _ => none

/-- `route`: strictly equal to `"fallback"` or `"sort"`. -/
def acceptRoute : Js.Val → Option Js.Val
  | .str s => if s = "fallback" ∨ s = "sort" then some (.str s) else none
  | _ => none

/-- `models`: an array whose members are all strings. -/
def acceptStringArray : Js.Val → Option Js.Val
  | .arr l => if l.allStrings then some (.arr l) else none
  | _ => none

/-- `temperature`: a number in `[0, 2]`. -/
def acceptTemperature : Js.Val → Option Js.Val
  | .num q => if 0 ≤ q ∧ q ≤ 2 then some (.num q) else none
  | _ => none

/-- `max_tokens` (also `reasoning.max_tokens`): a positive integer
(`Number.isInteger` = denominator 1 on the rational model). -/
def acceptPosInt : Js.Val → Option Js.Val
  | .num q => if 0 < q ∧ q.den = 1 then some (.num q) else none
  | _ => none

/-- `typeof x === "number"` pass-through (`top_p`, `seed`,
`frequency_penalty`, `presence_penalty`). -/
def acceptNumber : Js.Val → Option Js.Val
  | .num q => some (.num q)
  | _ => none

/-- `stop`: a string, or an array of strings. -/
def acceptStop : Js.Val → Option Js.Val
  | .str s => some (.str s)
  | .arr l => if l.allStrings then some (.arr l) else none
  | _ => none

/-- `VALID_REASONING_EFFORTS` membership. -/
def validEffort (s : String) : Bool :=
  s == "xhigh" || s == "high" || s == "medium" || s == "low"
    || s == "minimal" || s == "none"

/-- `VALID_REASONING_SUMMARIES` membership. -/
def validSummary (s : String) : Bool :=
  s == "auto" || s == "concise" || s == "detailed"

/-- `reasoning.effort`: a string in the valid effort set. -/
def acceptEffort : Js.Val → Option Js.Val
  | .str s => if validEffort s then some (.str s) else none
  | _ => none

/-- `reasoning.excluded`: `typeof x === "boolean"`. -/
def acceptBool : Js.Val → Option Js.Val
  | .bool b => some (.bool b)
  | _ => none

/-- `reasoning.summary`: a string in the valid summary set. -/
def acceptSummary : Js.Val → Option Js.Val
  | .str s => if validSummary s then some (.str s) else none
  | _ => none

/-- Conditionally prepend a field. -/
def optCons (k : String) : Option Js.Val → Js.ValObj → Js.ValObj
  | some v, tl => .cons k v tl
  | none, tl => tl

/-- The rebuilt `reasoning` sub-object, from the four raw sub-field
values, in source assignment order. -/
def reasoningCore (e m x su : Js.Val) : Js.ValObj :=
  optCons "effort" (acceptEffort e)
    (optCons "max_tokens" (acceptPosInt m)
      (optCons "excluded" (acceptBool x)
        (optCons "summary" (acceptSummary su) .nil)))

/-- `hasField` of the reasoning block: at least one sub-field passed. -/
def hasReasoningField (e m x su : Js.Val) : Bool :=
  (acceptEffort e).isSome || (acceptPosInt m).isSome
    || (acceptBool x).isSome || (acceptSummary su).isSome

/-- `reasoning`: a truthy non-array object, reduced to its valid
sub-fields, kept only when at least one sub-field passed. -/
def acceptReasoning : Js.Val → Option Js.Val
  | .obj o =>
    if hasReasoningField (o.get "effort") (o.get "max_tokens")
        (o.get "excluded") (o.get "summary")
    then some (.obj (reasoningCore (o.get "effort") (o.get "max_tokens")
      (o.get "excluded") (o.get "summary")))
    else none
  | _ => none

/-- `response_format`: truthy and `typeof === "object"` (arrays
included). -/
def acceptObjectOrArray : Js.Val → Option Js.Val
  | .arr l => some (.arr l)
  | .obj o => some (.obj o)
  | _ => none

/-- `tools` / `plugins`: `Array.isArray`. -/
def acceptArray : Js.Val → Option Js.Val
  | .arr l => some (.arr l)
  | _ => none

/-- `tool_choice`: anything `!== undefined`. -/
def acceptDefined : Js.Val → Option Js.Val
  | .undef => none
  | v => some v

/-- `provider` / `debug`: a truthy non-array object, passed through. -/
def acceptObject : Js.Val → Option Js.Val
  | .obj o => some (.obj o)
  | _ => none

/-- The assignments of `validateOverrides`, in source order. -/
def overrideRules : List FieldRule :=
  [⟨"model", acceptString⟩,
   ⟨"session_id", acceptSessionId⟩,
   ⟨"route", acceptRoute⟩,
   ⟨"models", acceptStringArray⟩,
   ⟨"temperature", acceptTemperature⟩,
   ⟨"max_tokens", acceptPosInt⟩,
   ⟨"top_p", acceptNumber⟩,
   ⟨"seed", acceptNumber⟩,
   ⟨"frequency_penalty", acceptNumber⟩,
   ⟨"presence_penalty", acceptNumber⟩,
   ⟨"stop", acceptStop⟩,
   ⟨"reasoning", acceptReasoning⟩,
   ⟨"response_format", acceptObjectOrArray⟩,
   ⟨"tools", acceptArray⟩,
   ⟨"tool_choice", acceptDefined⟩,
   ⟨"plugins", acceptArray⟩,
   ⟨"provider", acceptObject⟩,
   ⟨"debug", acceptObject⟩]

/-- `validateOverrides` from `src/provider/overrides.ts` (the unknown-key
pass only logs and is elided). -/
def validateOverrides (raw : Js.ValObj) : Js.ValObj :=
  applyRules raw overrideRules

/-- A filter is stable when any value it lets through it lets through
unchanged on a second pass. -/
def Stable (accept : Js.Val → Option Js.Val) : Prop :=
  ∀ v w, accept v = some w → accept w = some w

end Overrides

namespace Headless

/-- An IPC request, as far as the dispatcher, `checkCancel` and
`handleCancel` inspect it (`init`/`send` payloads are handled elsewhere). -/
inductive Req where
  | init (id : String)
  | send (id : String) (message : String)
  | status (id : String)
  | shutdown (id : String)
  | cancel (id : String) (target_id : String)
deriving DecidableEq, Repr

/-- The adapter's mutable state, as the send/cancel handlers touch it.
`journal` records the messages appended to the session file, in order (the
`timestamp` field added by `appendMessage` is modelled in the `Jsonl`
namespace and elided here).  `hasSession`/`messages` stand for
`session === null` and `session.messages`. -/
structure HState where
  hasSession : Bool
  messages : List Agent.Message
  journal : List Agent.Message
  activeId : Option String
  cancelTargetId : Option String
  queue : List Req
deriving DecidableEq, Repr

/-- `handleCancel` from `src/headless/index.ts`: it writes nothing; when
`target_id === activeId` it sets `cancelTargetId = activeId`. -/
def handleCancel (s : HState) (target : String) : HState ×  List Resp :=
  (if s.activeId = some target then { s with cancelTargetId := s.activeId }
   else s, [])

/-- The queue scan of `checkCancel`: remove the first `cancel` entry whose
`target_id === activeId` (a string never `===` `null`). -/
def removeFirstCancel : List Req → Option String → Option (List Req)
  | [], _ => none
  | r :: rest, active =>
    match r with
    | .cancel cid target =>
      if some target = active then some rest
      else
        match removeFirstCancel rest active with
        | some rest2 => some (.cancel cid target :: rest2)
        | none => none
    | other =>
      match removeFirstCancel rest active with
      | some rest2 => some (other :: rest2)
      | none => none

/-- `checkCancel` from `src/headless/index.ts`: dequeue a matching queued
`cancel` (setting `cancelTargetId`), else test
`cancelTargetId === activeId`. -/
def checkCancel (s : HState) : Bool × HState :=
  match removeFirstCancel s.queue s.activeId with
  | some queue2 =>
    (true, { s with cancelTargetId := s.activeId, queue := queue2 })
  | none => (s.cancelTargetId == s.activeId, s)

/-- One suspension step of the streaming agent loop as the send handler
observes it: the requests that arrived on stdin while awaiting the step,
the messages the generator pushed to the conversation since its previous
yield, and the yielded event. -/
structure LoopStep where
  arrivals : List Req
  appends : List Agent.Message
  event : Agent.AgentEvent
deriving DecidableEq, Repr

/-- How the generator finishes after its last yield: it returns, or an
exception (with raw message `raw`) propagates out of it.  `arrivals` and
`appends` happen while awaiting the finish. -/
inductive LoopFinish where
  | done (arrivals : List Req) (appends : List Agent.Message)
  | thrown (arrivals : List Req) (appends : List Agent.Message) (raw : String)
deriving DecidableEq, Repr

/-- A whole generator run as observed at the event boundaries. -/
structure LoopTrace where
  steps : List LoopStep
  finish : LoopFinish
deriving DecidableEq, Repr

/-- Observable actions of the send handler, in chronological order. -/
inductive Action where
  | emit (r : Resp)
  | journal (m : Agent.Message)
  | setActive (v : Option String)
deriving DecidableEq, Repr

/-- Is the action a journal append? -/
def Action.isJournal : Action → Bool
  | .journal _ => true
  | _ => false

/-- How the send handler terminated. -/
inductive SendOutcome where
  | completed
  | cancelled
  | threw
  | rejected
deriving DecidableEq, Repr

/-- The aggregation variables of `handleSend`. -/
structure SendAcc where
  toolCallsMade : List (String × Js.Val)
  iterations : ℕ
  response : Option String
  totalUsage : Option UsageTriple
  sawContentDelta : Bool
  errorMsg : Option String
deriving DecidableEq, Repr

/-- The initial aggregation state. -/
def initialSendAcc : SendAcc :=
  { toolCallsMade := [], iterations := 0, response := none,
    totalUsage := none, sawContentDelta := false, errorMsg := none }

/-- `mapAgentEvent` from `src/headless/index.ts`.  `parse` models
`JSON.parse` for the tool arguments (`{}` on failure); `normalize` models
`normalizeError` (host-runtime regex/JSON dissection) on the raw message
of an `error` event. -/
def mapAgentEvent (parse : String → Option Js.Val)
    (normalize : String → NormalizedError) :
    Agent.AgentEvent → Option WorkerEvent
  | .content_delta t => some (.content_delta t)
  | .tool_start name call =>
    some (.tool_start name
      ((parse call.function.arguments).getD (.obj .nil)))
  | .tool_end name result _ => some (.tool_end name (result.take 500))
  | .usage u =>
    some (.usage ⟨u.prompt_tokens, u.completion_tokens, u.total_tokens⟩)
  | .loop_detected n =>
    some (.error ("Doom loop detected: " ++ toString n ++ " iterations")
      (some "loop_detected") none none)
  | .assistant_message _ => none
  | .error raw =>
    let ne := normalize raw
    some (.error ne.error (some ne.code) ne.provider ne.details)

/-- The truthiness test `event.message.content` on an optional string. -/
def contentTruthy : Option String → Bool
  | some c => c != ""
  | none => false

/-- The `switch` over agent events that updates the aggregation
variables. -/
def updateAcc (parse : String → Option Js.Val) (acc : SendAcc) :
    Agent.AgentEvent → SendAcc
  | .content_delta _ => { acc with sawContentDelta := true }
  | .tool_start name call =>
    { acc with toolCallsMade := acc.toolCallsMade
        ++ [(name, (parse call.function.arguments).getD (.obj .nil))] }
  | .assistant_message m =>
    if !acc.sawContentDelta && contentTruthy m.content then
      { acc with iterations := acc.iterations + 1, response := m.content }
    else
      { acc with iterations := acc.iterations + 1 }
  | .usage u =>
    { acc with
      totalUsage := some ⟨u.prompt_tokens, u.completion_tokens,
        u.total_tokens⟩ }
  | .loop_detected n =>
    { acc with
      errorMsg := some ("Doom loop detected: " ++ toString n
        ++ " iterations") }
  | .error raw => { acc with errorMsg := some raw }
  | .tool_end _ _ _ => acc

/-- `typeof lastMsg.content === "string"` on the last conversation
message. -/
def lastContentString : Option Agent.Message → Option String
  | some (.system c) => some c
  | some (.user c) => some c
  | some (.tool _ c) => some c
  | some (.assistant m) => m.content
  | none => none

/-- The post-loop tail of `handleSend` on normal generator completion:
final `result` line first, then the journal writes of every message the
loop appended after the user message (conversation slice from
`userIdx + 1`), then `activeId = null`. -/
def finishSend (sendId : String) (userIdx : ℕ) (s : HState)
    (acc : SendAcc) : HState × List Action × SendOutcome :=
  let resultLine :=
    match acc.errorMsg with
    | some e =>
      buildResult sendId "error" none acc.toolCallsMade acc.totalUsage
        acc.iterations (some e)
    | none =>
      let response :=
        if acc.sawContentDelta && acc.response == none then
          lastContentString s.messages.getLast?
        else acc.response
      buildResult sendId "ok" response acc.toolCallsMade acc.totalUsage
        acc.iterations none
  let journaled := s.messages.drop (userIdx + 1)
  ({ s with
      activeId := none,
      journal := s.journal ++ journaled },
   Action.emit resultLine :: journaled.map Action.journal
     ++ [Action.setActive none],
   .completed)

/-- The event pump of `handleSend`: one iteration of
`for await (const event of gen)` per `LoopStep`, then the finish. -/
def runSendSteps (parse : String → Option Js.Val)
    (normalize : String → NormalizedError) (sendId : String)
    (userIdx : ℕ) :
    List LoopStep → LoopFinish → HState → SendAcc →
      HState × List Action × SendOutcome
  | [], finish, s, acc =>
    match finish with
    | .done arrivals appends =>
      let s1 := { s with
        queue := s.queue ++ arrivals,
        messages := s.messages ++ appends }
      finishSend sendId userIdx s1 acc
    | .thrown arrivals appends raw =>
      let s1 := { s with
        queue := s.queue ++ arrivals,
        messages := s.messages ++ appends }
      let ne := normalize raw
      ({ s1 with activeId := none },
       [Action.emit (wrapEvent
          (.error ne.error (some ne.code) ne.provider ne.details)),
        Action.emit (buildResult sendId "error" none acc.toolCallsMade
          acc.totalUsage acc.iterations (some ne.error)),
        Action.setActive none],
       .threw)
  | step :: steps, finish, s, acc =>
    let s1 := { s with
      queue := s.queue ++ step.arrivals,
      messages := s.messages ++ step.appends }
    let check := checkCancel s1
    if check.1 then
      ({ check.2 with activeId := none },
       [Action.emit (buildResult sendId "error" none acc.toolCallsMade
          none acc.iterations (some "cancelled")),
        Action.setActive none],
       .cancelled)
    else
      let emitted :=
        match mapAgentEvent parse normalize step.event with
        | some we => [Action.emit (wrapEvent we)]
        | none => []
      let acc2 := updateAcc parse acc step.event
      let r := runSendSteps parse normalize sendId userIdx steps finish
        check.2 acc2
      (r.1, emitted ++ r.2.1, r.2.2)

/-- `handleSend` from `src/headless/index.ts`, over a loop trace. -/
def handleSend (parse : String → Option Js.Val)
    (normalize : String → NormalizedError) (sendId message : String)
    (trace : LoopTrace) (s : HState) :
    HState × List Action × SendOutcome :=
  if s.hasSession = false then
    (s, [Action.emit (buildError (some sendId)
      "Not initialized. Send 'init' first.")], .rejected)
  else if s.activeId ≠ none then
    (s, [Action.emit (buildError (some sendId)
      "A send is already in progress.")], .rejected)
  else
    let userMsg := Agent.Message.user message
    let userIdx := s.messages.length
    let s1 := { s with
      activeId := some sendId,
      cancelTargetId := none,
      messages := s.messages ++ [userMsg],
      journal := s.journal ++ [userMsg] }
    let r := runSendSteps parse normalize sendId userIdx trace.steps
      trace.finish s1 initialSendAcc
    (r.1, Action.setActive (some sendId) :: Action.journal userMsg
      :: r.2.1, r.2.2)

end Headless

/- ===================================================================== -/
/- ============================= THEOREMS ============================== -/
/- ===================================================================== -/

/-- Helper: in a registry with distinct tool names, the `Map` lookup finds
the registered tool with the requested name. -/
theorem find_tool_eq (tools : List Registry.HeddleTool) (t : Registry.HeddleTool)
    (ht : t ∈ tools) (hname : t.name = name)
    (hnodup : (tools.map (·.name)).Nodup) :
    tools.find? (fun u => u.name == name) = some t := by
  induction tools with
  | nil => cases ht
  | cons hd tl ih =>
    rcases List.mem_cons.mp ht with h | h
    · subst h
      simp [List.find?, hname]
    · have hne : hd.name ≠ name := by
        intro hcontra
        have : t.name ∈ tl.map (·.name) := List.mem_map_of_mem _ h
        simp only [List.map_cons, List.nodup_cons] at hnodup
        exact hnodup.1 (hcontra ▸ (hname ▸ this))
      have hrec := ih h (by simpa using hnodup.of_cons)
      have hbeq : (hd.name == name) = false := beq_eq_false_iff_ne.mpr hne
      simp [List.find?, hbeq, hrec]

/-- C6: `registry.execute(name, argsJson)`: an unregistered name throws;
arguments that are not valid JSON produce the literal
`"Error: Invalid JSON arguments: <argsJson>"` string; a throwing tool
produces `"Error: <message>"`; otherwise the tool's string result is
returned verbatim. -/
theorem c6_registry_execute
    (parse : String → Option Js.Val) (tools : List Registry.HeddleTool)
    (name argsJson : String) :
    ((∀ t ∈ tools, t.name ≠ name) →
      Registry.execute parse tools name argsJson
        = .error ("Unknown tool: " ++ name)) ∧
    (∀ t ∈ tools, t.name = name → (tools.map (·.name)).Nodup →
      (parse argsJson = none →
        Registry.execute parse tools name argsJson
          = .ok ("Error: Invalid JSON arguments: " ++ argsJson)) ∧
      (∀ v, parse argsJson = some v →
        (∀ m, t.execute v = .thrown m →
          Registry.execute parse tools name argsJson = .ok ("Error: " ++ m)) ∧
        (∀ s, t.execute v = .ok s →
          Registry.execute parse tools name argsJson = .ok s))) := by
  constructor
  · intro habs
    have hnone : tools.find? (fun u => u.name == name) = none := by
      rw [List.find?_eq_none]
      intro t ht
      simpa using habs t ht
    simp [Registry.execute, hnone]
  · intro t ht hname hnodup
    have hfind := find_tool_eq tools t ht hname hnodup
    constructor
    · intro hparse
      simp [Registry.execute, hfind, hparse]
    · intro v hparse
      constructor
      · intro m hexec
        simp [Registry.execute, hfind, hparse, hexec]
      · intro s hexec
        simp [Registry.execute, hfind, hparse, hexec]

/-- Witness for C6 at concrete inputs: a one-tool registry, exercising the
unknown-name, invalid-JSON, tool-throws and success cases. -/
theorem c6_registry_execute_witness :
    Registry.execute (fun s => if s = "null" then some Js.Val.null else none)
        [⟨"echo", fun _ => .ok "pong"⟩] "missing" "null"
      = .error ("Unknown tool: " ++ "missing") ∧
    Registry.execute (fun s => if s = "null" then some Js.Val.null else none)
        [⟨"echo", fun _ => .ok "pong"⟩] "echo" "oops"
      = .ok ("Error: Invalid JSON arguments: " ++ "oops") ∧
    Registry.execute (fun s => if s = "null" then some Js.Val.null else none)
        [⟨"boom", fun _ => .thrown "kaput"⟩] "boom" "null"
      = .ok ("Error: " ++ "kaput") ∧
    Registry.execute (fun s => if s = "null" then some Js.Val.null else none)
        [⟨"echo", fun _ => .ok "pong"⟩] "echo" "null"
      = .ok "pong" := by
  refine ⟨?_, ?_, ?_, ?_⟩
  · exact (c6_registry_execute _ _ "missing" "null").1 (by simp)
  · exact ((c6_registry_execute _ _ "echo" "oops").2 ⟨"echo", fun _ => .ok "pong"⟩
      (by simp) rfl (by simp)).1 (by simp)
  · exact (((c6_registry_execute _ _ "boom" "null").2 ⟨"boom", fun _ => .thrown "kaput"⟩
      (by simp) rfl (by simp)).2 Js.Val.null (by simp)).1 "kaput" rfl
  · exact (((c6_registry_execute _ _ "echo" "null").2 ⟨"echo", fun _ => .ok "pong"⟩
      (by simp) rfl (by simp)).2 Js.Val.null (by simp)).2 "pong" rfl

/-- C7: an `init` carrying a protocol version whose major component differs
from the adapter's own emits exactly one error result
(`protocol_version_mismatch`, empty `tool_calls_made`, iterations 0) and
exits with code 1 before `createSession` runs; a minor-only difference is
compatible-with-warning and continues; a patch-only difference or exact
equality is compatible without warning and continues. -/
theorem c7_protocol_version_gate
    (own : Protocol.Semver) (setup : Except String String)
    (req : Headless.InitRequest) (v : Protocol.Semver)
    (hv : req.protocol_version = some v) :
    (v.major ≠ own.major →
      Headless.handleInit own setup req =
        { out := [Headless.buildResult req.id "error" none [] none 0
            (some "protocol_version_mismatch")],
          exitCode := some 1, setupAttempted := false }) ∧
    (v.major = own.major →
      (Headless.handleInit own setup req).exitCode = none ∧
      (Headless.handleInit own setup req).setupAttempted = true ∧
      (∀ sid, setup = .ok sid →
        Headless.handleInit own setup req =
          { out := [Headless.Resp.init_ok req.id sid own],
            exitCode := none, setupAttempted := true })) ∧
    (v.major = own.major → v.minor ≠ own.minor →
      (Protocol.checkCompatibility own v).compatible = true ∧
      (Protocol.checkCompatibility own v).warn.isSome = true) ∧
    (v.major = own.major → v.minor = own.minor →
      (Protocol.checkCompatibility own v).compatible = true ∧
      (Protocol.checkCompatibility own v).warn = none) := by
  refine ⟨?_, ?_, ?_, ?_⟩
  · intro hmaj
    simp [Headless.handleInit, hv, Protocol.checkCompatibility, Ne.symm hmaj]
  · intro hmaj
    have hcompat : (Protocol.checkCompatibility own v).compatible = true := by
      simp only [Protocol.checkCompatibility, hmaj]
      split <;> [skip; split <;> [skip; split]] <;> simp_all
    refine ⟨?_, ?_, ?_⟩
    · simp only [Headless.handleInit, hv, hcompat]
      cases setup <;> simp [Headless.handleInitSetup]
    · simp only [Headless.handleInit, hv, hcompat]
      cases setup <;> simp [Headless.handleInitSetup]
    · intro sid hsid
      simp [Headless.handleInit, hv, hcompat, hsid, Headless.handleInitSetup]
  · intro hmaj hmin
    simp [Protocol.checkCompatibility, hmaj, Ne.symm hmin]
  · intro hmaj hmin
    by_cases hp : own.patch = v.patch <;>
      simp [Protocol.checkCompatibility, hmaj, hmin, hp]

/-- Witness for C7 at concrete versions: own 0.1.0 against client 1.1.0
(major mismatch → exit 1) and client 0.2.3 (minor mismatch → continue). -/
theorem c7_protocol_version_gate_witness :
    Headless.handleInit ⟨0, 1, 0⟩ (.ok "sid-1") ⟨"1", some ⟨1, 1, 0⟩⟩ =
      { out := [Headless.buildResult "1" "error" none [] none 0
          (some "protocol_version_mismatch")],
        exitCode := some 1, setupAttempted := false } ∧
    Headless.handleInit ⟨0, 1, 0⟩ (.ok "sid-1") ⟨"1", some ⟨0, 2, 3⟩⟩ =
      { out := [Headless.Resp.init_ok "1" "sid-1" ⟨0, 1, 0⟩],
        exitCode := none, setupAttempted := true } :=
  ⟨(c7_protocol_version_gate ⟨0, 1, 0⟩ (.ok "sid-1") ⟨"1", some ⟨1, 1, 0⟩⟩
      ⟨1, 1, 0⟩ rfl).1 (by decide),
   ((c7_protocol_version_gate ⟨0, 1, 0⟩ (.ok "sid-1") ⟨"1", some ⟨0, 2, 3⟩⟩
      ⟨0, 2, 3⟩ rfl).2.1 rfl).2.2 "sid-1" rfl⟩

/-- Helper: the delay computed by the source (`getDelay` over
`parseRetryAfter`) is the delay the spec prescribes. -/
theorem getDelay_eq_specDelay (now : ℤ) (h : Retry.RetryAfterHeader)
    (base : ℚ) (attempt : ℕ) :
    Retry.getDelay attempt (Retry.parseRetryAfter now h) base
      = Retry.specDelay now h base attempt := by
  cases h <;> simp [Retry.getDelay, Retry.parseRetryAfter, Retry.specDelay]

/-- C5: with retry enabled at the defaults (3 retries, 1000 ms base), each
HTTP 429 answer causes a sleep for the `Retry-After`-derived delay (seconds
× 1000, or `max(0, date − now)`, or `base · 2 ^ attempt` with attempt
counted from 0 when the header does not parse); after the final attempt the
429 is returned to the caller unchanged; a response with any other status is
returned immediately, so no status other than 429 triggers a retry. -/
theorem c5_retry_behavior (now : ℤ) (r0 r1 r2 r3 : Retry.HttpResponse) :
    Retry.getRetryConfig .unset = some { maxRetries := 3, baseDelayMs := 1000 } ∧
    (∀ (h : Retry.RetryAfterHeader) (base : ℚ) (attempt : ℕ),
      Retry.getDelay attempt (Retry.parseRetryAfter now h) base
        = Retry.specDelay now h base attempt) ∧
    (r0.status = 429 → r1.status = 429 → r2.status = 429 → r3.status = 429 →
      Retry.fetchWithRetry .unset now [r0, r1, r2, r3] =
        some (r3, [Retry.specDelay now r0.retryAfter 1000 0,
                   Retry.specDelay now r1.retryAfter 1000 1,
                   Retry.specDelay now r2.retryAfter 1000 2])) ∧
    (∀ (cfg : Option Retry.RetryConfig) (maxRetries attempt : ℕ)
        (r : Retry.HttpResponse) (rest : List Retry.HttpResponse),
      r.status ≠ 429 →
      Retry.fetchWithRetryAux cfg now maxRetries attempt (r :: rest)
        = some (r, [])) := by
  refine ⟨rfl, getDelay_eq_specDelay now, ?_, ?_⟩
  · intro h0 h1 h2 h3
    simp [Retry.fetchWithRetry, Retry.getRetryConfig, Retry.fetchWithRetryAux,
      h0, h1, h2, h3, getDelay_eq_specDelay]
  · intro cfg maxRetries attempt r rest hr
    simp [Retry.fetchWithRetryAux, hr]

/-- Witness for C5: a run of four 429s whose headers exercise the numeric,
HTTP-date and unparseable branches, and a 500 that is returned with no
retry. -/
theorem c5_retry_behavior_witness :
    Retry.fetchWithRetry .unset 100
        [⟨429, .numeric 2, ""⟩, ⟨429, .httpDate 600, ""⟩,
         ⟨429, .garbage, ""⟩, ⟨429, .absent, "slow down"⟩] =
      some (⟨429, .absent, "slow down"⟩,
        [Retry.specDelay 100 (.numeric 2) 1000 0,
         Retry.specDelay 100 (.httpDate 600) 1000 1,
         Retry.specDelay 100 .garbage 1000 2]) ∧
    Retry.fetchWithRetryAux (some ⟨3, 1000⟩) 100 3 0 [⟨500, .absent, "boom"⟩]
      = some (⟨500, .absent, "boom"⟩, []) :=
  ⟨(c5_retry_behavior 100 ⟨429, .numeric 2, ""⟩ ⟨429, .httpDate 600, ""⟩
      ⟨429, .garbage, ""⟩ ⟨429, .absent, "slow down"⟩).2.2.1 rfl rfl rfl rfl,
   (c5_retry_behavior 100 ⟨429, .absent, ""⟩ ⟨429, .absent, ""⟩
      ⟨429, .absent, ""⟩ ⟨429, .absent, ""⟩).2.2.2 (some ⟨3, 1000⟩) 3 0
      ⟨500, .absent, "boom"⟩ [] (by decide)⟩

/-- Helper: prepending an event that is neither `usage` nor
`assistant_message` does not affect `usageWellPlaced`. -/
theorem usageWellPlaced_cons_neutral (e : Agent.AgentEvent)
    (rest : List Agent.AgentEvent) (he : Agent.neutralEvent e = true) :
    Agent.usageWellPlaced (e :: rest) = Agent.usageWellPlaced rest := by
  cases e <;> first
    | rfl
    | simp [Agent.neutralEvent] at he

/-- Helper: a block of neutral events can be dropped from the front. -/
theorem usageWellPlaced_append (xs rest : List Agent.AgentEvent)
    (h : ∀ e ∈ xs, Agent.neutralEvent e = true) :
    Agent.usageWellPlaced (xs ++ rest) = Agent.usageWellPlaced rest := by
  induction xs with
  | nil => rfl
  | cons e xs ih =>
    rw [List.cons_append, usageWellPlaced_cons_neutral e _ (h e (by simp)),
      ih (fun x hx => h x (by simp [hx]))]

/-- Helper: prepending a non-`usage` event does not affect
`usageBeforeHead`. -/
theorem usageBeforeHead_cons_nonusage (e : Agent.AgentEvent)
    (rest : List Agent.AgentEvent) (he : Agent.nonUsageEvent e = true) :
    Agent.usageBeforeHead (e :: rest) = Agent.usageBeforeHead rest := by
  cases e <;> first
    | rfl
    | simp [Agent.nonUsageEvent] at he

/-- Helper: a block of non-`usage` events can be dropped from the front. -/
theorem usageBeforeHead_append (xs rest : List Agent.AgentEvent)
    (h : ∀ e ∈ xs, Agent.nonUsageEvent e = true) :
    Agent.usageBeforeHead (xs ++ rest) = Agent.usageBeforeHead rest := by
  induction xs with
  | nil => rfl
  | cons e xs ih =>
    rw [List.cons_append, usageBeforeHead_cons_nonusage e _ (h e (by simp)),
      ih (fun x hx => h x (by simp [hx]))]

/-- Helper: the tool-execution loop yields only `tool_start`/`tool_end`
events. -/
theorem execCalls_events_neutral
    (exec : String → String → Except String String) :
    ∀ calls, ∀ e ∈ (Agent.execCalls exec calls).1,
      Agent.neutralEvent e = true := by
  intro calls
  induction calls with
  | nil => simp [Agent.execCalls]
  | cons c rest ih =>
    intro e he
    simp only [Agent.execCalls] at he
    cases hx : exec c.function.name c.function.arguments with
    | error err =>
      rw [hx] at he
      simp at he
      subst he
      rfl
    | ok result =>
      rw [hx] at he
      simp only [List.mem_cons] at he
      rcases he with h | h | h
      · subst h; rfl
      · subst h; rfl
      · exact ih e h

/-- Helper: every event of `execCalls` is also non-`usage`. -/
theorem execCalls_events_nonusage
    (exec : String → String → Except String String) :
    ∀ calls, ∀ e ∈ (Agent.execCalls exec calls).1,
      Agent.nonUsageEvent e = true := by
  intro calls e he
  have := execCalls_events_neutral exec calls e he
  cases e <;> simp_all [Agent.neutralEvent, Agent.nonUsageEvent]

/-- Helper: one chunk yields only `content_delta` events. -/
theorem processChunk_events_neutral (st : Agent.StreamState)
    (c : Agent.Chunk) :
    ∀ e ∈ (Agent.processChunk st c).2, Agent.neutralEvent e = true := by
  intro e he
  unfold Agent.processChunk at he
  rcases hh : c.choices.head? with _ | choice <;> rw [hh] at he
  · simp at he
  · by_cases hc : Agent.strTruthy choice.delta.content = true
    · simp only [hc, if_true] at he
      simp at he
      subst he
      rfl
    · rw [Bool.not_eq_true] at hc
      simp [hc] at he

/-- Helper: a whole stream's delta events are all `content_delta`. -/
theorem assembleIterationFrom_events_neutral :
    ∀ (chunks : List Agent.Chunk) (st : Agent.StreamState),
      ∀ e ∈ (Agent.assembleIterationFrom st chunks).2,
        Agent.neutralEvent e = true := by
  intro chunks
  induction chunks with
  | nil => intro st e he; simp [Agent.assembleIterationFrom] at he
  | cons c cs ih =>
    intro st e he
    simp only [Agent.assembleIterationFrom, List.mem_append] at he
    rcases he with h | h
    · exact processChunk_events_neutral st c e h
    · exact ih _ e h

/-- Helper: `assistant_message` directly followed by `usage` is consumed as
a well-placed pair. -/
theorem uwp_assistant_usage (m : Agent.AssistantMessage) (u : Agent.Usage)
    (rest : List Agent.AgentEvent) :
    Agent.usageWellPlaced (.assistant_message m :: .usage u :: rest)
      = Agent.usageWellPlaced rest := rfl

/-- Helper: `assistant_message` followed by a neutral event steps past the
assistant message. -/
theorem uwp_assistant_cons_neutral (m : Agent.AssistantMessage)
    (e : Agent.AgentEvent) (rest : List Agent.AgentEvent)
    (he : Agent.neutralEvent e = true) :
    Agent.usageWellPlaced (.assistant_message m :: e :: rest)
      = Agent.usageWellPlaced (e :: rest) := by
  cases e <;> first
    | rfl
    | simp [Agent.neutralEvent] at he

/-- Helper: a final lone `assistant_message` is well placed. -/
theorem uwp_assistant_nil (m : Agent.AssistantMessage) :
    Agent.usageWellPlaced [.assistant_message m] = true := rfl

/-- Helper: a list of neutral events is well placed. -/
theorem uwp_of_neutral (xs : List Agent.AgentEvent)
    (h : ∀ e ∈ xs, Agent.neutralEvent e = true) :
    Agent.usageWellPlaced xs = true := by
  have := usageWellPlaced_append xs [] h
  simpa using this

/-- Helper: `usage` directly followed by `assistant_message` satisfies the
non-streaming ordering. -/
theorem ubh_usage_assistant (u : Agent.Usage) (m : Agent.AssistantMessage)
    (rest : List Agent.AgentEvent) :
    Agent.usageBeforeHead (.usage u :: .assistant_message m :: rest)
      = Agent.usageBeforeHead (.assistant_message m :: rest) := by
  simp [Agent.usageBeforeHead]

/-- Helper: `usage` directly followed by an `error` event satisfies the
non-streaming ordering. -/
theorem ubh_usage_error (u : Agent.Usage) (s : String)
    (rest : List Agent.AgentEvent) :
    Agent.usageBeforeHead (.usage u :: .error s :: rest)
      = Agent.usageBeforeHead (.error s :: rest) := by
  simp [Agent.usageBeforeHead]

/-- Helper: a list of non-`usage` events satisfies the non-streaming
ordering. -/
theorem ubh_of_nonusage (xs : List Agent.AgentEvent)
    (h : ∀ e ∈ xs, Agent.nonUsageEvent e = true) :
    Agent.usageBeforeHead xs = true := by
  have := usageBeforeHead_append xs [] h
  simpa using this

/-- Helper: the tool-execution loop on a non-empty call list starts with
`tool_start`. -/
theorem execCalls_cons_head (exec : String → String → Except String String)
    (c : Agent.ToolCall) (cs : List Agent.ToolCall) :
    ∃ tl, (Agent.execCalls exec (c :: cs)).1
      = .tool_start c.function.name c :: tl := by
  unfold Agent.execCalls
  cases exec c.function.name c.function.arguments <;> simp

/-- Helper: an `assistant_message` head steps off `usageBeforeHead`. -/
theorem ubh_assistant_cons (m : Agent.AssistantMessage)
    (rest : List Agent.AgentEvent) :
    Agent.usageBeforeHead (.assistant_message m :: rest)
      = Agent.usageBeforeHead rest := rfl

/-- Helper: in every run of the non-streaming loop, each `usage` event is
immediately followed by that iteration's `assistant_message` or no-choice
`error` event. -/
theorem runAgentLoopAux_ubh (jsonNorm : String → Option String)
    (exec : String → String → Except String String)
    (maxIterations doomThreshold : ℕ) :
    ∀ (fuel : ℕ) (responses : List Agent.Response)
      (msgs : List Agent.Message) (rh : List String),
      Agent.usageBeforeHead
        (Agent.runAgentLoopAux jsonNorm exec maxIterations doomThreshold
          fuel responses msgs rh).events = true := by
  intro fuel
  induction fuel with
  | zero => intro responses msgs rh; rfl
  | succ fuel ih =>
    intro responses msgs rh
    cases responses with
    | nil => rfl
    | cons r rest =>
      simp only [Agent.runAgentLoopAux]
      rcases hhc : r.choices.head? with _ | choice <;>
        rcases hu : r.usage with _ | u <;>
          simp only [hhc, hu, List.cons_append, List.nil_append]
      · rfl
      · simp [Agent.usageBeforeHead]
      · by_cases he : choice.tool_calls.isEmpty = true
        · simp only [he, if_true]
          rfl
        · simp only [he, if_false, Bool.false_eq_true]
          rcases hec : Agent.execCalls exec choice.tool_calls
            with ⟨execEvents, toolMsgs, thr⟩
          have hne : ∀ x ∈ execEvents, Agent.nonUsageEvent x = true :=
            fun x hx => execCalls_events_nonusage exec choice.tool_calls x
              (by rw [hec]; exact hx)
          cases thr with
          | some e =>
            simp only
            rw [ubh_assistant_cons]
            exact ubh_of_nonusage _ hne
          | none =>
            simp only
            split <;> split
            all_goals rw [ubh_assistant_cons, usageBeforeHead_append _ _ hne]
            all_goals first
              | rfl
              | exact ih rest _ _
      · by_cases he : choice.tool_calls.isEmpty = true
        · simp only [he, if_true]
          rw [ubh_usage_assistant]
          rfl
        · simp only [he, if_false, Bool.false_eq_true]
          rcases hec : Agent.execCalls exec choice.tool_calls
            with ⟨execEvents, toolMsgs, thr⟩
          have hne : ∀ x ∈ execEvents, Agent.nonUsageEvent x = true :=
            fun x hx => execCalls_events_nonusage exec choice.tool_calls x
              (by rw [hec]; exact hx)
          cases thr with
          | some e =>
            simp only
            rw [ubh_usage_assistant, ubh_assistant_cons]
            exact ubh_of_nonusage _ hne
          | none =>
            simp only
            split <;> split
            all_goals rw [ubh_usage_assistant, ubh_assistant_cons,
              usageBeforeHead_append _ _ hne]
            all_goals first
              | rfl
              | exact ih rest _ _

/-- Helper: an `assistant_message` whose successor is not `usage` steps off
`usageWellPlaced`. -/
theorem uwp_assistant_cons_of_head (m : Agent.AssistantMessage)
    (rest : List Agent.AgentEvent)
    (h : ∀ u, rest.head? ≠ some (.usage u)) :
    Agent.usageWellPlaced (.assistant_message m :: rest)
      = Agent.usageWellPlaced rest := by
  cases rest with
  | nil => rfl
  | cons e rest =>
    cases e <;> first
      | rfl
      | (exfalso; exact h _ rfl)

/-- Helper: the delta events of a whole stream are neutral (they are all
`content_delta`). -/
theorem assembleIteration_events_neutral (chunks : List Agent.Chunk) :
    ∀ e ∈ (Agent.assembleIteration chunks).2, Agent.neutralEvent e = true :=
  fun e he => assembleIterationFrom_events_neutral chunks _ e he

/-- Helper: in every run of the streaming loop, each `usage` event
immediately follows an `assistant_message` event. -/
theorem runStreamingAux_uwp (jsonNorm : String → Option String)
    (exec : String → String → Except String String)
    (maxIterations doomThreshold : ℕ) :
    ∀ (fuel : ℕ) (streams : List (List Agent.Chunk))
      (msgs : List Agent.Message) (rh : List String),
      Agent.usageWellPlaced
        (Agent.runAgentLoopStreamingAux jsonNorm exec maxIterations
          doomThreshold fuel streams msgs rh).events = true := by
  intro fuel
  induction fuel with
  | zero => intro streams msgs rh; rfl
  | succ fuel ih =>
    intro streams msgs rh
    cases streams with
    | nil => rfl
    | cons chunks rest =>
      simp only [Agent.runAgentLoopStreamingAux]
      rcases hsu : (Agent.assembleIteration chunks).1.streamUsage with _ | u <;>
        simp only [hsu, List.append_assoc, List.cons_append, List.nil_append]
      · by_cases he :
          (Agent.assembledToolCallList (Agent.assembleIteration chunks).1).isEmpty = true
        · simp only [he, if_true]
          rw [usageWellPlaced_append _ _ (assembleIteration_events_neutral chunks)]
          rfl
        · simp only [he, if_false, Bool.false_eq_true]
          rcases htc : Agent.assembledToolCallList (Agent.assembleIteration chunks).1
            with _ | ⟨c, cs⟩
          · rw [htc] at he; simp [List.isEmpty] at he
          · rcases hec : Agent.execCalls exec (c :: cs)
              with ⟨execEvents, toolMsgs, thr⟩
            have hne : ∀ x ∈ execEvents, Agent.neutralEvent x = true :=
              fun x hx => execCalls_events_neutral exec _ x (by rw [hec]; exact hx)
            obtain ⟨tl, hhead⟩ := execCalls_cons_head exec c cs
            have hee : execEvents = .tool_start c.function.name c :: tl := by
              rw [← hhead, hec]
            cases thr with
            | some e =>
              simp only
              rw [usageWellPlaced_append _ _ (assembleIteration_events_neutral chunks)]
              rw [uwp_assistant_cons_of_head _ _
                (by rw [hee]; intro u hcontra; simp at hcontra)]
              exact uwp_of_neutral _ hne
            | none =>
              simp only
              split <;> split
              all_goals rw [usageWellPlaced_append _ _
                  (assembleIteration_events_neutral chunks),
                uwp_assistant_cons_of_head _ _
                  (by rw [hee]; intro u hcontra; simp at hcontra),
                usageWellPlaced_append _ _ hne]
              all_goals first
                | rfl
                | exact ih rest _ _
      · by_cases he :
          (Agent.assembledToolCallList (Agent.assembleIteration chunks).1).isEmpty = true
        · simp only [he, if_true]
          rw [usageWellPlaced_append _ _ (assembleIteration_events_neutral chunks),
            uwp_assistant_usage]
          rfl
        · simp only [he, if_false, Bool.false_eq_true]
          rcases hec : Agent.execCalls exec
              (Agent.assembledToolCallList (Agent.assembleIteration chunks).1)
            with ⟨execEvents, toolMsgs, thr⟩
          have hne : ∀ x ∈ execEvents, Agent.neutralEvent x = true :=
            fun x hx => execCalls_events_neutral exec _ x (by rw [hec]; exact hx)
          cases thr with
          | some e =>
            simp only
            rw [usageWellPlaced_append _ _ (assembleIteration_events_neutral chunks),
              uwp_assistant_usage]
            exact uwp_of_neutral _ hne
          | none =>
            simp only
            split <;> split
            all_goals rw [usageWellPlaced_append _ _
                (assembleIteration_events_neutral chunks),
              uwp_assistant_usage,
              usageWellPlaced_append _ _ hne]
            all_goals first
              | rfl
              | exact ih rest _ _

/-- C2 counterexample: in the NON-streaming loop, a response that carries a
`usage` yields the `usage` event BEFORE the iteration's `assistant_message`
event, contradicting the claim that in both variants `usage` comes
immediately after `assistant_message` and never before it. -/
theorem c2_counterexample :
    (Agent.runAgentLoop (fun _ => none) (fun _ _ => .ok "") 20 3
        [{ choices := [{ content := some "hi", tool_calls := [] }],
           usage := some ⟨1, 2, 3⟩ }] []).events
      = [.usage ⟨1, 2, 3⟩,
         .assistant_message { content := some "hi", tool_calls := [] }] ∧
    Agent.usageWellPlaced
      (Agent.runAgentLoop (fun _ => none) (fun _ _ => .ok "") 20 3
        [{ choices := [{ content := some "hi", tool_calls := [] }],
           usage := some ⟨1, 2, 3⟩ }] []).events = false := by
  constructor <;> rfl

/-- C2 amended: in the STREAMING loop every `usage` event is yielded
immediately after that iteration's `assistant_message` event; in the
NON-streaming loop every `usage` event is instead yielded at the head of
the iteration, immediately before the iteration's `assistant_message` (or
its no-choice `error`) event. -/
theorem c2_amended_usage_position (jsonNorm : String → Option String)
    (exec : String → String → Except String String)
    (maxIterations doomThreshold : ℕ) (streams : List (List Agent.Chunk))
    (responses : List Agent.Response)
    (messagesS messagesN : List Agent.Message) :
    Agent.usageWellPlaced
      (Agent.runAgentLoopStreaming jsonNorm exec maxIterations doomThreshold
        streams messagesS).events = true ∧
    Agent.usageBeforeHead
      (Agent.runAgentLoop jsonNorm exec maxIterations doomThreshold
        responses messagesN).events = true :=
  ⟨runStreamingAux_uwp jsonNorm exec maxIterations doomThreshold
      maxIterations streams messagesS [],
   runAgentLoopAux_ubh jsonNorm exec maxIterations doomThreshold
      maxIterations responses messagesN []⟩

/-- Helper: pushing one fingerprint and trimming (the loop's
`push`/`shift` maintenance) is exactly the last-`T` window of the extended
history. -/
theorem recentWindow_step (T : ℕ) (hs : List String) (h : String) :
    (if (Agent.recentWindow T hs ++ [h]).length > T
     then (Agent.recentWindow T hs ++ [h]).drop 1
     else Agent.recentWindow T hs ++ [h])
      = Agent.recentWindow T (hs ++ [h]) := by
  have hpush : Agent.recentWindow T hs ++ [h]
      = (hs ++ [h]).drop (hs.length - T) := by
    unfold Agent.recentWindow
    rw [List.drop_append_eq_append_drop]
    have h0 : hs.length - T - hs.length = 0 := by omega
    rw [h0, List.drop_zero]
  have hlen2 : ((hs ++ [h]).drop (hs.length - T)).length
      = hs.length + 1 - (hs.length - T) := by
    simp
  rw [hpush]
  by_cases hbig : ((hs ++ [h]).drop (hs.length - T)).length > T
  · rw [hlen2] at hbig
    rw [if_pos (by rw [hlen2]; exact hbig), List.drop_drop]
    unfold Agent.recentWindow
    congr 1
    simp only [List.length_append, List.length_cons, List.length_nil]
    omega
  · rw [hlen2] at hbig
    rw [if_neg (by rw [hlen2]; exact hbig)]
    unfold Agent.recentWindow
    congr 1
    simp only [List.length_append, List.length_cons, List.length_nil]
    omega

/-- Helper: "every entry equals the last entry" is "all entries are
pairwise byte-equal". -/
theorem all_getLast_iff_allSame (l : List String) :
    (l.all (fun h => l.getLast? == some h) = true) ↔ Agent.AllSame l := by
  rw [List.all_eq_true]
  constructor
  · intro H x hx y hy
    have hax := H x hx
    have hay := H y hy
    simp only [beq_iff_eq] at hax hay
    rw [hax] at hay
    exact Option.some_injective _ hay
  · intro H e he
    rcases l with _ | ⟨a, tl⟩
    · cases he
    · have hne : (a :: tl) ≠ [] := List.cons_ne_nil a tl
      rw [List.getLast?_eq_getLast_of_ne_nil hne]
      simp only [beq_iff_eq, Option.some.injEq]
      exact H _ (List.getLast_mem hne) e he

/-- Helper: the source's doom test on the maintained window is the spec's
detection condition on the history. -/
theorem isDoomLoop_recentWindow (T : ℕ) (hs : List String) :
    Agent.isDoomLoop (Agent.recentWindow T hs) T = true ↔
      (T ≤ hs.length ∧ Agent.AllSame (Agent.recentWindow T hs)) := by
  unfold Agent.isDoomLoop
  have hlen : (Agent.recentWindow T hs).length
      = hs.length - (hs.length - T) := by
    simp [Agent.recentWindow]
  rcases Nat.lt_or_ge hs.length T with hc | hc
  · have hsmall : (Agent.recentWindow T hs).length < T := by omega
    rw [if_pos hsmall]
    simp only [Bool.false_eq_true, false_iff, not_and]
    intro habs
    omega
  · have hTlen : (Agent.recentWindow T hs).length = T := by omega
    have hnot : ¬ (Agent.recentWindow T hs).length < T := by omega
    rw [if_neg hnot, hTlen, Nat.sub_self, List.drop_zero,
      all_getLast_iff_allSame]
    exact ⟨fun hA => ⟨hc, hA⟩, fun hA => hA.2⟩

/-- Helper: the spec window after iteration `hs.length` of
`hs ++ fp :: fps` is the maintained window of `hs ++ [fp]`. -/
theorem window_take (hs : List String) (fp : String) (fps : List String)
    (T : ℕ) :
    Agent.window (hs ++ fp :: fps) T hs.length
      = Agent.recentWindow T (hs ++ [fp]) := by
  unfold Agent.window Agent.recentWindow
  rw [List.take_append_eq_append_take]
  have h1 : hs.take (hs.length + 1) = hs := List.take_of_length_le (by omega)
  have h2 : hs.length + 1 - hs.length = 1 := by omega
  rw [h1, h2]
  simp [List.length_append]

/-- Helper: a total (never-throwing) `registry.execute` never aborts the
tool loop. -/
theorem execCalls_ok_no_throw (f : String → String → String) :
    ∀ calls, (Agent.execCalls (fun n a => Except.ok (f n a)) calls).2.2
      = none := by
  intro calls
  induction calls with
  | nil => rfl
  | cons c cs ih => simpa [Agent.execCalls] using ih

/-- Helper: the tool loop never yields `loop_detected`. -/
theorem execCalls_no_loop_detected
    (exec : String → String → Except String String) :
    ∀ calls n, Agent.AgentEvent.loop_detected n
      ∉ (Agent.execCalls exec calls).1 := by
  intro calls
  induction calls with
  | nil => intro n hmem; simp [Agent.execCalls] at hmem
  | cons c cs ih =>
    intro n hmem
    simp only [Agent.execCalls] at hmem
    cases hx : exec c.function.name c.function.arguments with
    | error err =>
      rw [hx] at hmem
      simp at hmem
    | ok result =>
      rw [hx] at hmem
      simp only [List.mem_cons] at hmem
      rcases hmem with h | h | h
      · simp at h
      · simp at h
      · exact ih n h

/-- Helper: doom-loop characterization of the non-streaming loop relative
to an arbitrary already-processed fingerprint history `hs`: the run yields
`loop_detected` exactly at the first iteration whose last-`T` fingerprint
window is all-equal, consuming that iteration's response and no further
one; with no such iteration it never yields `loop_detected`. -/
theorem runAux_doom_char (jsonNorm : String → Option String)
    (f : String → String → String) (maxIterations T : ℕ) :
    ∀ (fuel : ℕ) (responses : List Agent.Response)
      (msgs : List Agent.Message) (hs : List String),
      (∀ r ∈ responses, Agent.isToolCalling r = true) →
      ((∀ k, k < fuel → k < responses.length →
          ¬ Agent.WindowEqual
              (hs ++ responses.map (Agent.responseFingerprint jsonNorm))
              T (hs.length + k)) →
        ∀ n, Agent.AgentEvent.loop_detected n ∉
          (Agent.runAgentLoopAux jsonNorm (fun na a => Except.ok (f na a))
            maxIterations T fuel responses msgs
            (Agent.recentWindow T hs)).events) ∧
      (∀ k, k < fuel → k < responses.length →
        Agent.WindowEqual
          (hs ++ responses.map (Agent.responseFingerprint jsonNorm))
          T (hs.length + k) →
        (∀ j, j < k →
          ¬ Agent.WindowEqual
              (hs ++ responses.map (Agent.responseFingerprint jsonNorm))
              T (hs.length + j)) →
        (Agent.runAgentLoopAux jsonNorm (fun na a => Except.ok (f na a))
          maxIterations T fuel responses msgs
          (Agent.recentWindow T hs)).consumed = k + 1 ∧
        ∃ pre, (Agent.runAgentLoopAux jsonNorm
            (fun na a => Except.ok (f na a))
            maxIterations T fuel responses msgs
            (Agent.recentWindow T hs)).events
          = pre ++ [Agent.AgentEvent.loop_detected T]) := by
  intro fuel
  induction fuel with
  | zero =>
    intro responses msgs hs htc
    constructor
    · intro _ n hmem
      simp [Agent.runAgentLoopAux] at hmem
    · intro k hk
      omega
  | succ fuel ih =>
    intro responses msgs hs htc
    cases responses with
    | nil =>
      constructor
      · intro _ n hmem
        simp [Agent.runAgentLoopAux] at hmem
      · intro k _ hk
        simp at hk
    | cons r rest =>
      have htcr : Agent.isToolCalling r = true := htc r (by simp)
      have htcrest : ∀ x ∈ rest, Agent.isToolCalling x = true :=
        fun x hx => htc x (by simp [hx])
      rcases hhc : r.choices.head? with _ | choice
      · rw [Agent.isToolCalling, hhc] at htcr
        cases htcr
      · have hne : ¬ choice.tool_calls.isEmpty = true := by
          rw [Agent.isToolCalling, hhc] at htcr
          simp only [Bool.not_eq_true'] at htcr
          simp [htcr]
        rcases hec : Agent.execCalls (fun na a => Except.ok (f na a))
            choice.tool_calls with ⟨execEvents, toolMsgs, thr⟩
        have hthr : thr = none := by
          have := execCalls_ok_no_throw f choice.tool_calls
          rw [hec] at this
          exact this
        subst hthr
        have hnold : ∀ n, Agent.AgentEvent.loop_detected n ∉ execEvents :=
          fun n hmem => execCalls_no_loop_detected
            (fun na a => Except.ok (f na a)) choice.tool_calls n
            (by rw [hec]; exact hmem)
        simp only [List.map_cons]
        set fp := Agent.responseFingerprint jsonNorm r with hfpdef
        have hfp : Agent.hashToolCalls jsonNorm
            (choice.tool_calls.map Agent.ToolCall.function) = fp := by
          rw [hfpdef]
          unfold Agent.responseFingerprint
          rw [hhc]
        have hiff : Agent.isDoomLoop
            (Agent.recentWindow T (hs ++ [fp])) T = true
            ↔ Agent.WindowEqual
                (hs ++ fp :: rest.map (Agent.responseFingerprint jsonNorm))
                T hs.length := by
          rw [isDoomLoop_recentWindow]
          unfold Agent.WindowEqual
          rw [window_take]
          simp [List.length_append]
        simp only [Agent.runAgentLoopAux, hhc, hec, hne, if_false,
          Bool.false_eq_true, hfp, recentWindow_step]
        by_cases hdoom : Agent.isDoomLoop
            (Agent.recentWindow T (hs ++ [fp])) T = true
        · simp only [hdoom, if_true]
          have hwe0 : Agent.WindowEqual
              (hs ++ fp :: rest.map (Agent.responseFingerprint jsonNorm))
              T (hs.length + 0) := by
            rw [Nat.add_zero]
            exact hiff.mp hdoom
          constructor
          · intro hnone n
            exact absurd hwe0 (hnone 0 (by omega) (by simp))
          · intro k _ _ _ hprev
            cases k with
            | zero =>
              refine ⟨by cases r.usage <;> rfl, ?_⟩
              cases hu : r.usage with
              | none =>
                exact ⟨Agent.AgentEvent.assistant_message
                  { content := choice.content,
                    tool_calls := choice.tool_calls } :: execEvents,
                  by simp⟩
              | some u =>
                exact ⟨Agent.AgentEvent.usage u ::
                  Agent.AgentEvent.assistant_message
                    { content := choice.content,
                      tool_calls := choice.tool_calls } :: execEvents,
                  by simp⟩
            | succ k =>
              exact absurd hwe0 (hprev 0 (by omega))
        · simp only [hdoom, if_false, Bool.false_eq_true]
          have hwne0 : ¬ Agent.WindowEqual
              (hs ++ fp :: rest.map (Agent.responseFingerprint jsonNorm))
              T (hs.length + 0) := by
            rw [Nat.add_zero]
            exact fun hwe => hdoom (hiff.mpr hwe)
          have hshift : hs ++ [fp]
                ++ rest.map (Agent.responseFingerprint jsonNorm)
              = hs ++ fp :: rest.map (Agent.responseFingerprint jsonNorm) := by
            simp
          have hlen1 : (hs ++ [fp]).length = hs.length + 1 := by simp
          obtain ⟨ihA, ihB⟩ := ih rest
            (msgs ++ Agent.Message.assistant
              { content := choice.content,
                tool_calls := choice.tool_calls } :: toolMsgs)
            (hs ++ [fp]) htcrest
          rw [hshift, hlen1] at ihA ihB
          constructor
          · intro hnone n hmem
            have hnone2 : ∀ k, k < fuel → k < rest.length →
                ¬ Agent.WindowEqual
                  (hs ++ fp :: rest.map (Agent.responseFingerprint jsonNorm))
                  T (hs.length + 1 + k) := by
              intro k hk hk2 hwe
              exact hnone (k + 1) (by omega) (by simp; omega)
                (by rw [show hs.length + (k + 1) = hs.length + 1 + k by omega]
                    exact hwe)
            have hrec := ihA hnone2 n
            rcases (by cases hu : r.usage <;> rw [hu] at hmem <;>
                simpa using hmem :
              Agent.AgentEvent.loop_detected n ∈ execEvents ∨
                Agent.AgentEvent.loop_detected n ∈
                  (Agent.runAgentLoopAux jsonNorm
                    (fun na a => Except.ok (f na a)) maxIterations T fuel
                    rest (msgs ++ Agent.Message.assistant
                      { content := choice.content,
                        tool_calls := choice.tool_calls } :: toolMsgs)
                    (Agent.recentWindow T (hs ++ [fp]))).events)
              with hmem2 | hmem2
            · exact hnold n hmem2
            · exact hrec hmem2
          · intro k hk hk2 hwe hprev
            cases k with
            | zero =>
              exact absurd hwe hwne0
            | succ k =>
              have hwe2 : Agent.WindowEqual
                  (hs ++ fp :: rest.map (Agent.responseFingerprint jsonNorm))
                  T (hs.length + 1 + k) := by
                rw [show hs.length + 1 + k = hs.length + (k + 1) by omega]
                exact hwe
              have hprev2 : ∀ j, j < k →
                  ¬ Agent.WindowEqual
                    (hs ++ fp :: rest.map (Agent.responseFingerprint jsonNorm))
                    T (hs.length + 1 + j) := by
                intro j hj hwj
                exact hprev (j + 1) (by omega)
                  (by rw [show hs.length + (j + 1) = hs.length + 1 + j by omega]
                      exact hwj)
              obtain ⟨hcons, pre, hpre⟩ := ihB k (by omega)
                (by simpa using hk2) hwe2 hprev2
            
              refine ⟨by cases r.usage <;> simp [hcons], ?_⟩
              cases hu : r.usage with
              | none =>
                refine ⟨Agent.AgentEvent.assistant_message
                  { content := choice.content,
                    tool_calls := choice.tool_calls } :: execEvents ++ pre, ?_⟩
                simp [hpre]
              | some u =>
                refine ⟨Agent.AgentEvent.usage u ::
                  Agent.AgentEvent.assistant_message
                    { content := choice.content,
                      tool_calls := choice.tool_calls } :: execEvents ++ pre, ?_⟩
                simp [hpre]

/-- Helper: the stream-assembly phase never yields `loop_detected`. -/
theorem assembleIterationFrom_no_loop_detected :
    ∀ (chunks : List Agent.Chunk) (st : Agent.StreamState) (n : ℕ),
      Agent.AgentEvent.loop_detected n
        ∉ (Agent.assembleIterationFrom st chunks).2 := by
  intro chunks st n hmem
  have := assembleIterationFrom_events_neutral chunks st _ hmem
  have h2 : ∀ e ∈ (Agent.assembleIterationFrom st chunks).2,
      Agent.neutralEvent e = true := assembleIterationFrom_events_neutral chunks st
  -- `loop_detected` is neutral, so inspect the actual event shapes instead:
  clear this h2
  induction chunks generalizing st with
  | nil => simp [Agent.assembleIterationFrom] at hmem
  | cons c cs ih =>
    simp only [Agent.assembleIterationFrom, List.mem_append] at hmem
    rcases hmem with h | h
    · unfold Agent.processChunk at h
      rcases hh : c.choices.head? with _ | choice <;> rw [hh] at h
      · simp at h
      · by_cases hc : Agent.strTruthy choice.delta.content = true
        · simp only [hc, if_true] at h
          simp at h
        · rw [Bool.not_eq_true] at hc
          simp [hc] at h
    · exact ih _ h

/-- Helper: doom-loop characterization of the streaming loop, relative to
an arbitrary already-processed fingerprint history `hs` (mirror of
`runAux_doom_char`). -/
theorem runStreamingAux_doom_char (jsonNorm : String → Option String)
    (f : String → String → String) (maxIterations T : ℕ) :
    ∀ (fuel : ℕ) (streams : List (List Agent.Chunk))
      (msgs : List Agent.Message) (hs : List String),
      (∀ chunks ∈ streams,
        (Agent.assembledToolCallList
          (Agent.assembleIteration chunks).1).isEmpty = false) →
      ((∀ k, k < fuel → k < streams.length →
          ¬ Agent.WindowEqual
              (hs ++ streams.map (Agent.streamFingerprint jsonNorm))
              T (hs.length + k)) →
        ∀ n, Agent.AgentEvent.loop_detected n ∉
          (Agent.runAgentLoopStreamingAux jsonNorm
            (fun na a => Except.ok (f na a))
            maxIterations T fuel streams msgs
            (Agent.recentWindow T hs)).events) ∧
      (∀ k, k < fuel → k < streams.length →
        Agent.WindowEqual
          (hs ++ streams.map (Agent.streamFingerprint jsonNorm))
          T (hs.length + k) →
        (∀ j, j < k →
          ¬ Agent.WindowEqual
              (hs ++ streams.map (Agent.streamFingerprint jsonNorm))
              T (hs.length + j)) →
        (Agent.runAgentLoopStreamingAux jsonNorm
          (fun na a => Except.ok (f na a))
          maxIterations T fuel streams msgs
          (Agent.recentWindow T hs)).consumed = k + 1 ∧
        ∃ pre, (Agent.runAgentLoopStreamingAux jsonNorm
            (fun na a => Except.ok (f na a))
            maxIterations T fuel streams msgs
            (Agent.recentWindow T hs)).events
          = pre ++ [Agent.AgentEvent.loop_detected T]) := by
  intro fuel
  induction fuel with
  | zero =>
    intro streams msgs hs htc
    constructor
    · intro _ n hmem
      simp [Agent.runAgentLoopStreamingAux] at hmem
    · intro k hk
      omega
  | succ fuel ih =>
    intro streams msgs hs htc
    cases streams with
    | nil =>
      constructor
      · intro _ n hmem
        simp [Agent.runAgentLoopStreamingAux] at hmem
      · intro k _ hk
        simp at hk
    | cons chunks rest =>
      have htcr := htc chunks (by simp)
      have htcrest : ∀ x ∈ rest,
          (Agent.assembledToolCallList
            (Agent.assembleIteration x).1).isEmpty = false :=
        fun x hx => htc x (by simp [hx])
      rcases hec : Agent.execCalls (fun na a => Except.ok (f na a))
          (Agent.assembledToolCallList (Agent.assembleIteration chunks).1)
        with ⟨execEvents, toolMsgs, thr⟩
      have hthr : thr = none := by
        have := execCalls_ok_no_throw f
          (Agent.assembledToolCallList (Agent.assembleIteration chunks).1)
        rw [hec] at this
        exact this
      subst hthr
      have hnold : ∀ n, Agent.AgentEvent.loop_detected n ∉ execEvents :=
        fun n hmem => execCalls_no_loop_detected
          (fun na a => Except.ok (f na a)) _ n (by rw [hec]; exact hmem)
      have hnold2 : ∀ n, Agent.AgentEvent.loop_detected n
          ∉ (Agent.assembleIteration chunks).2 :=
        fun n => assembleIterationFrom_no_loop_detected chunks _ n
      simp only [List.map_cons]
      set fp := Agent.streamFingerprint jsonNorm chunks with hfpdef
      have hiff : Agent.isDoomLoop
          (Agent.recentWindow T (hs ++ [fp])) T = true
          ↔ Agent.WindowEqual
              (hs ++ fp :: rest.map (Agent.streamFingerprint jsonNorm))
              T hs.length := by
        rw [isDoomLoop_recentWindow]
        unfold Agent.WindowEqual
        rw [window_take]
        simp [List.length_append]
      simp only [Agent.runAgentLoopStreamingAux, hec, htcr, if_false,
        Bool.false_eq_true, recentWindow_step]
      by_cases hdoom : Agent.isDoomLoop
          (Agent.recentWindow T (hs ++ [fp])) T = true
      · rw [hfpdef] at hdoom
        simp only [Agent.streamFingerprint] at hdoom
        simp only [hdoom, if_true]
        have hwe0 : Agent.WindowEqual
            (hs ++ fp :: rest.map (Agent.streamFingerprint jsonNorm))
            T (hs.length + 0) := by
          rw [Nat.add_zero]
          exact hiff.mp (by rw [hfpdef]; simpa [Agent.streamFingerprint]
            using hdoom)
        constructor
        · intro hnone n
          exact absurd hwe0 (hnone 0 (by omega) (by simp))
        · intro k _ _ _ hprev
          cases k with
          | zero =>
            refine ⟨rfl, ?_⟩
            exact ⟨(Agent.assembleIteration chunks).2
              ++ Agent.AgentEvent.assistant_message
                (Agent.assembledMessage chunks)
              :: (match (Agent.assembleIteration chunks).1.streamUsage with
                  | some u => [Agent.AgentEvent.usage u]
                  | none => []) ++ execEvents, by simp⟩
          | succ k =>
            exact absurd hwe0 (hprev 0 (by omega))
      · rw [hfpdef] at hdoom
        simp only [Agent.streamFingerprint] at hdoom
        simp only [hdoom, if_false, Bool.false_eq_true]
        have hwne0 : ¬ Agent.WindowEqual
            (hs ++ fp :: rest.map (Agent.streamFingerprint jsonNorm))
            T (hs.length + 0) := by
          rw [Nat.add_zero]
          intro hwe
          exact hdoom (by
            have := hiff.mpr hwe
            rw [hfpdef] at this
            simpa [Agent.streamFingerprint] using this)
        have hshift : hs ++ [fp]
              ++ rest.map (Agent.streamFingerprint jsonNorm)
            = hs ++ fp :: rest.map (Agent.streamFingerprint jsonNorm) := by
          simp
        have hlen1 : (hs ++ [fp]).length = hs.length + 1 := by simp
        obtain ⟨ihA, ihB⟩ := ih rest
          (msgs ++ Agent.Message.assistant (Agent.assembledMessage chunks)
            :: toolMsgs)
          (hs ++ [fp]) htcrest
        rw [hshift, hlen1] at ihA ihB
        have hfprw : Agent.recentWindow T
            (hs ++ [Agent.hashToolCalls jsonNorm
              (List.map Agent.ToolCall.function
                (Agent.assembledToolCallList
                  (Agent.assembleIteration chunks).1))])
            = Agent.recentWindow T (hs ++ [fp]) := by
          rw [hfpdef]
          rfl
        constructor
        · intro hnone n hmem
          have hnone2 : ∀ k, k < fuel → k < rest.length →
              ¬ Agent.WindowEqual
                (hs ++ fp :: rest.map (Agent.streamFingerprint jsonNorm))
                T (hs.length + 1 + k) := by
            intro k hk hk2 hwe
            exact hnone (k + 1) (by omega) (by simp; omega)
              (by rw [show hs.length + (k + 1) = hs.length + 1 + k by omega]
                  exact hwe)
          have hrec := ihA hnone2 n
          rw [hfprw] at hmem
          rcases (by rcases hsu : (Agent.assembleIteration chunks).1.streamUsage
                with _ | u <;> rw [hsu] at hmem <;> simpa using hmem :
            Agent.AgentEvent.loop_detected n
                ∈ (Agent.assembleIteration chunks).2 ∨
              Agent.AgentEvent.loop_detected n ∈ execEvents ∨
              Agent.AgentEvent.loop_detected n ∈
                (Agent.runAgentLoopStreamingAux jsonNorm
                  (fun na a => Except.ok (f na a)) maxIterations T fuel
                  rest (msgs ++ Agent.Message.assistant
                    (Agent.assembledMessage chunks) :: toolMsgs)
                  (Agent.recentWindow T (hs ++ [fp]))).events)
            with hmem2 | hmem2 | hmem2
          · exact hnold2 n hmem2
          · exact hnold n hmem2
          · exact hrec hmem2
        · intro k hk hk2 hwe hprev
          cases k with
          | zero =>
            exact absurd hwe hwne0
          | succ k =>
            have hwe2 : Agent.WindowEqual
                (hs ++ fp :: rest.map (Agent.streamFingerprint jsonNorm))
                T (hs.length + 1 + k) := by
              rw [show hs.length + 1 + k = hs.length + (k + 1) by omega]
              exact hwe
            have hprev2 : ∀ j, j < k →
                ¬ Agent.WindowEqual
                  (hs ++ fp :: rest.map (Agent.streamFingerprint jsonNorm))
                  T (hs.length + 1 + j) := by
              intro j hj hwj
              exact hprev (j + 1) (by omega)
                (by rw [show hs.length + (j + 1) = hs.length + 1 + j by omega]
                    exact hwj)
            obtain ⟨hcons, pre, hpre⟩ := ihB k (by omega)
              (by simpa using hk2) hwe2 hprev2
            rw [hfprw]
            refine ⟨by simp [hcons], ?_⟩
            refine ⟨(Agent.assembleIteration chunks).2
              ++ Agent.AgentEvent.assistant_message
                (Agent.assembledMessage chunks)
              :: (match (Agent.assembleIteration chunks).1.streamUsage with
                  | some u => [Agent.AgentEvent.usage u]
                  | none => []) ++ execEvents ++ pre, ?_⟩
            rcases hsu : (Agent.assembleIteration chunks).1.streamUsage
              with _ | u <;> simp [hsu, hpre]

/-- C3: doom-loop law.  Each iteration's fingerprint is the per-call
strings `<name>:<normalizedArgs>` joined with `|` in call order, where
`normalizedArgs` re-serialises the arguments when they parse as JSON and
is the raw string otherwise; in both loop variants, if the last
`T = doomLoopThreshold` consecutive tool-calling iterations have byte-equal
fingerprints the run yields `loop_detected(count := T)` after that
iteration's tool executions (it is the final event) and terminates without
consuming a further provider response (`consumed = k + 1` at the first such
iteration `k`); if no window of `T` consecutive fingerprints is all-equal,
the run never yields `loop_detected`. -/
theorem c3_doom_loop_law (jsonNorm : String → Option String)
    (f : String → String → String) (maxIterations T : ℕ)
    (responses : List Agent.Response) (streams : List (List Agent.Chunk))
    (msgsN msgsS : List Agent.Message)
    (htcN : ∀ r ∈ responses, Agent.isToolCalling r = true)
    (htcS : ∀ chunks ∈ streams,
      (Agent.assembledToolCallList
        (Agent.assembleIteration chunks).1).isEmpty = false) :
    (∀ (calls : List Agent.FunctionCall),
      Agent.hashToolCalls jsonNorm calls
        = String.intercalate "|" (calls.map (fun tc =>
            tc.name ++ ":" ++ (match jsonNorm tc.arguments with
              | some s => s
              | none => tc.arguments)))) ∧
    ((∀ k, k < maxIterations → k < responses.length →
        ¬ Agent.WindowEqual
          (responses.map (Agent.responseFingerprint jsonNorm)) T k) →
      ∀ n, Agent.AgentEvent.loop_detected n ∉
        (Agent.runAgentLoop jsonNorm (fun na a => Except.ok (f na a))
          maxIterations T responses msgsN).events) ∧
    (∀ k, k < maxIterations → k < responses.length →
      Agent.WindowEqual
        (responses.map (Agent.responseFingerprint jsonNorm)) T k →
      (∀ j, j < k → ¬ Agent.WindowEqual
        (responses.map (Agent.responseFingerprint jsonNorm)) T j) →
      (Agent.runAgentLoop jsonNorm (fun na a => Except.ok (f na a))
        maxIterations T responses msgsN).consumed = k + 1 ∧
      ∃ pre, (Agent.runAgentLoop jsonNorm (fun na a => Except.ok (f na a))
          maxIterations T responses msgsN).events
        = pre ++ [Agent.AgentEvent.loop_detected T]) ∧
    ((∀ k, k < maxIterations → k < streams.length →
        ¬ Agent.WindowEqual
          (streams.map (Agent.streamFingerprint jsonNorm)) T k) →
      ∀ n, Agent.AgentEvent.loop_detected n ∉
        (Agent.runAgentLoopStreaming jsonNorm
          (fun na a => Except.ok (f na a))
          maxIterations T streams msgsS).events) ∧
    (∀ k, k < maxIterations → k < streams.length →
      Agent.WindowEqual
        (streams.map (Agent.streamFingerprint jsonNorm)) T k →
      (∀ j, j < k → ¬ Agent.WindowEqual
        (streams.map (Agent.streamFingerprint jsonNorm)) T j) →
      (Agent.runAgentLoopStreaming jsonNorm
        (fun na a => Except.ok (f na a))
        maxIterations T streams msgsS).consumed = k + 1 ∧
      ∃ pre, (Agent.runAgentLoopStreaming jsonNorm
          (fun na a => Except.ok (f na a))
          maxIterations T streams msgsS).events
        = pre ++ [Agent.AgentEvent.loop_detected T]) := by
  have h0 : Agent.recentWindow T ([] : List String) = [] := by
    simp [Agent.recentWindow]
  obtain ⟨hA, hB⟩ := runAux_doom_char jsonNorm f maxIterations T
    maxIterations responses msgsN [] htcN
  obtain ⟨hC, hD⟩ := runStreamingAux_doom_char jsonNorm f maxIterations T
    maxIterations streams msgsS [] htcS
  rw [h0] at hA hB hC hD
  simp only [List.nil_append, List.length_nil, Nat.zero_add] at hA hB hC hD
  refine ⟨fun calls => rfl, ?_, ?_, ?_, ?_⟩
  · intro hnone n
    exact hA (fun k hk hk2 => hnone k hk hk2) n
  · intro k hk hk2 hwe hprev
    exact hB k hk hk2 hwe (fun j hj => hprev j hj)
  · intro hnone n
    exact hC (fun k hk hk2 => hnone k hk hk2) n
  · intro k hk hk2 hwe hprev
    exact hD k hk hk2 hwe (fun j hj => hprev j hj)

/-- Witness for C3 at concrete inputs: four identical tool-calling
responses with threshold 3 detect the doom loop at the third iteration and
leave the fourth response unconsumed; three responses whose fingerprints
are not all equal never yield `loop_detected`. -/
theorem c3_doom_loop_law_witness :
    (Agent.runAgentLoop (fun _ => none) (fun _ _ => .ok "same") 20 3
      [⟨[⟨none, [⟨"c0", ⟨"echo", "sameargs"⟩⟩]⟩], none⟩,
       ⟨[⟨none, [⟨"c0", ⟨"echo", "sameargs"⟩⟩]⟩], none⟩,
       ⟨[⟨none, [⟨"c0", ⟨"echo", "sameargs"⟩⟩]⟩], none⟩,
       ⟨[⟨none, [⟨"c0", ⟨"echo", "sameargs"⟩⟩]⟩], none⟩] []).consumed = 3 ∧
    Agent.AgentEvent.loop_detected 3 ∉
      (Agent.runAgentLoop (fun _ => none) (fun _ _ => .ok "same") 20 3
        [⟨[⟨none, [⟨"c0", ⟨"echo", "argsA"⟩⟩]⟩], none⟩,
         ⟨[⟨none, [⟨"c0", ⟨"echo", "argsB"⟩⟩]⟩], none⟩,
         ⟨[⟨none, [⟨"c0", ⟨"echo", "argsA"⟩⟩]⟩], none⟩] []).events := by
  constructor
  · exact ((c3_doom_loop_law (fun _ => none) (fun _ _ => "same") 20 3
      [⟨[⟨none, [⟨"c0", ⟨"echo", "sameargs"⟩⟩]⟩], none⟩,
       ⟨[⟨none, [⟨"c0", ⟨"echo", "sameargs"⟩⟩]⟩], none⟩,
       ⟨[⟨none, [⟨"c0", ⟨"echo", "sameargs"⟩⟩]⟩], none⟩,
       ⟨[⟨none, [⟨"c0", ⟨"echo", "sameargs"⟩⟩]⟩], none⟩] [] [] []
      (by decide) (by simp)).2.2.1 2
      (by decide) (by decide) (by decide) (by decide)).1
  · exact (c3_doom_loop_law (fun _ => none) (fun _ _ => "same") 20 3
      [⟨[⟨none, [⟨"c0", ⟨"echo", "argsA"⟩⟩]⟩], none⟩,
       ⟨[⟨none, [⟨"c0", ⟨"echo", "argsB"⟩⟩]⟩], none⟩,
       ⟨[⟨none, [⟨"c0", ⟨"echo", "argsA"⟩⟩]⟩], none⟩] [] [] []
      (by decide) (by simp)).2.1 (by decide) 3

/-- Structural induction for `Js.ValObj` alone (the mutual recursor with
trivial motives for the other two types). -/
theorem valObj_induction (motive : Js.ValObj → Prop) (hnil : motive .nil)
    (hcons : ∀ k v tl, motive tl → motive (.cons k v tl)) :
    ∀ o, motive o :=
  @Js.ValObj.rec (fun _ => True) (fun _ => True) motive
    trivial trivial (fun _ => trivial) (fun _ => trivial) (fun _ => trivial)
    (fun _ _ => trivial) (fun _ _ => trivial)
    trivial (fun _ _ _ _ => trivial)
    hnil (fun k v tl _ htl => hcons k v tl htl)

/-- Structural induction for `Js.ValList` alone. -/
theorem valList_induction (motive : Js.ValList → Prop) (hnil : motive .nil)
    (hcons : ∀ hd tl, motive tl → motive (.cons hd tl)) :
    ∀ l, motive l :=
  @Js.ValList.rec (fun _ => True) motive (fun _ => True)
    trivial trivial (fun _ => trivial) (fun _ => trivial) (fun _ => trivial)
    (fun _ _ => trivial) (fun _ _ => trivial)
    hnil (fun hd tl _ htl => hcons hd tl htl)
    trivial (fun _ _ _ _ _ => trivial)

/-- Helper: writing a field that is not present appends it at the end of
the object. -/
theorem valObj_set_eq_snoc (o : Js.ValObj) (k : String) (v : Js.Val)
    (h : o.hasKey k = false) : o.set k v = o.snoc k v := by
  induction o using valObj_induction with
  | hnil => rfl
  | hcons k1 v1 tl ih =>
    simp only [Js.ValObj.hasKey, Bool.or_eq_false_iff] at h
    simp only [Js.ValObj.set, Js.ValObj.snoc]
    rw [if_neg (by simpa using h.1), ih h.2]

/-- Helper: appending a field under a different key does not change a
property read. -/
theorem valObj_get_snoc_ne (o : Js.ValObj) (k k2 : String) (v : Js.Val)
    (h : k2 ≠ k) : (o.snoc k2 v).get k = o.get k := by
  induction o using valObj_induction with
  | hnil =>
    simp [Js.ValObj.snoc, Js.ValObj.get, h]
  | hcons k1 v1 tl ih =>
    simp only [Js.ValObj.snoc, Js.ValObj.get]
    by_cases hk : k1 = k <;> simp [hk, ih]

/-- Helper: one appended line either survives `loadSession` or is dropped
as a `session_meta` header. -/
theorem loadSession_appendLine (file : Option (List Js.ValObj))
    (o : Js.ValObj) :
    Jsonl.loadSession (Jsonl.appendLine file o)
      = Jsonl.loadSession file
        ++ (if o.get "type" == Js.Val.str "session_meta" then [] else [o]) := by
  cases file with
  | none =>
    simp only [Jsonl.appendLine, Jsonl.loadSession, Option.getD_none,
      List.nil_append, List.filter]
    by_cases h : (o.get "type" == Js.Val.str "session_meta") = true <;>
      simp [h]
  | some objs =>
    simp only [Jsonl.appendLine, Jsonl.loadSession, Option.getD_some,
      List.filter_append]
    by_cases h : (o.get "type" == Js.Val.str "session_meta") = true <;>
      simp [h, List.filter]

/-- C8: journal round trip.  A missing file loads as the empty list; the
`session_meta` header line is dropped on load; and after any sequence of
`appendMessage` calls, `loadSession` returns exactly the appended
messages, in append order, each equal to the original message with a
`timestamp` field added at the end. -/
theorem c8_journal_round_trip (file : Option (List Js.ValObj))
    (meta : Js.ValObj) (entries : List (Js.ValObj × String))
    (hmeta : meta.get "type" = Js.Val.str "session_meta")
    (hmsg : ∀ p ∈ entries, p.1.get "type" ≠ Js.Val.str "session_meta")
    (hts : ∀ p ∈ entries, p.1.hasKey "timestamp" = false) :
    Jsonl.loadSession none = ([] : List Js.ValObj) ∧
    Jsonl.loadSession (Jsonl.writeSessionMeta file meta)
      = Jsonl.loadSession file ∧
    Jsonl.loadSession (Jsonl.appendMessages file entries)
      = Jsonl.loadSession file
        ++ entries.map
            (fun p => p.1.snoc "timestamp" (Js.Val.str p.2)) := by
  refine ⟨rfl, ?_, ?_⟩
  · rw [Jsonl.writeSessionMeta, loadSession_appendLine]
    rw [if_pos (by simp [hmeta])]
    simp
  · induction entries generalizing file with
    | nil => simp [Jsonl.appendMessages]
    | cons p rest ih =>
      obtain ⟨m, ts⟩ := p
      simp only [Jsonl.appendMessages]
      rw [ih (Jsonl.appendMessage file m ts)
          (fun q hq => hmsg q (List.mem_cons_of_mem _ hq))
          (fun q hq => hts q (List.mem_cons_of_mem _ hq))]
      rw [Jsonl.appendMessage, loadSession_appendLine]
      have hset : m.set "timestamp" (Js.Val.str ts)
          = m.snoc "timestamp" (Js.Val.str ts) :=
        valObj_set_eq_snoc m "timestamp" (Js.Val.str ts)
          (hts (m, ts) (List.mem_cons_self _ _))
      have htype : (m.snoc "timestamp" (Js.Val.str ts)).get "type"
          = m.get "type" :=
        valObj_get_snoc_ne m "type" "timestamp" (Js.Val.str ts)
          (by decide)
      rw [hset, if_neg (by
        simp only [htype, beq_iff_eq]
        exact fun hcontra =>
          (hmsg (m, ts) (List.mem_cons_self _ _)) (by simpa using hcontra))]
      simp

/-- Witness for C8: a fresh (missing) file, a `session_meta` header and
two appended messages round-trip in order with timestamps added. -/
theorem c8_journal_round_trip_witness :
    Jsonl.loadSession
      (Jsonl.appendMessages
        (Jsonl.writeSessionMeta none
          (.cons "type" (.str "session_meta")
            (.cons "id" (.str "s1") .nil)))
        [(.cons "role" (.str "user") (.cons "content" (.str "hi") .nil), "t1"),
         (.cons "role" (.str "assistant")
            (.cons "content" (.str "yo") .nil), "t2")])
      = [.cons "role" (.str "user")
          (.cons "content" (.str "hi")
            (.cons "timestamp" (.str "t1") .nil)),
         .cons "role" (.str "assistant")
          (.cons "content" (.str "yo")
            (.cons "timestamp" (.str "t2") .nil))] := by
  have h := c8_journal_round_trip
    (Jsonl.writeSessionMeta none
      (.cons "type" (.str "session_meta") (.cons "id" (.str "s1") .nil)))
    (.cons "type" (.str "session_meta") (.cons "id" (.str "s1") .nil))
    [(.cons "role" (.str "user") (.cons "content" (.str "hi") .nil), "t1"),
     (.cons "role" (.str "assistant")
        (.cons "content" (.str "yo") .nil), "t2")]
    rfl (by decide) (by decide)
  rw [h.2.2]
  rfl

/-- Helper: a successful queue scan decomposes the queue around the first
matching `cancel` entry. -/
theorem removeFirstCancel_some (queue : List Headless.Req)
    (active : Option String) (q2 : List Headless.Req)
    (h : Headless.removeFirstCancel queue active = some q2) :
    ∃ cid target pre post, active = some target ∧
      queue = pre ++ .cancel cid target :: post ∧ q2 = pre ++ post := by
  induction queue generalizing q2 with
  | nil => simp [Headless.removeFirstCancel] at h
  | cons r rest ih =>
    cases r with
    | cancel cid target =>
      by_cases hm : some target = active
      · rw [Headless.removeFirstCancel, if_pos hm] at h
        obtain rfl : rest = q2 := by simpa using h
        exact ⟨cid, target, [], rest, hm.symm, by simp, by simp⟩
      · rw [Headless.removeFirstCancel, if_neg hm] at h
        cases hrec : Headless.removeFirstCancel rest active with
        | none => rw [hrec] at h; simp at h
        | some rest2 =>
          rw [hrec] at h
          obtain rfl : Headless.Req.cancel cid target :: rest2 = q2 := by
            simpa using h
          obtain ⟨c2, t2, pre, post, ha, hq, hr⟩ := ih rest2 hrec
          exact ⟨c2, t2, .cancel cid target :: pre, post, ha,
            by simp [hq], by simp [hr]⟩
    | init i =>
      simp only [Headless.removeFirstCancel] at h
      cases hrec : Headless.removeFirstCancel rest active with
      | none => rw [hrec] at h; simp at h
      | some rest2 =>
        rw [hrec] at h
        obtain rfl : Headless.Req.init i :: rest2 = q2 := by simpa using h
        obtain ⟨c2, t2, pre, post, ha, hq, hr⟩ := ih rest2 hrec
        exact ⟨c2, t2, .init i :: pre, post, ha, by simp [hq], by simp [hr]⟩
    | send i m =>
      simp only [Headless.removeFirstCancel] at h
      cases hrec : Headless.removeFirstCancel rest active with
      | none => rw [hrec] at h; simp at h
      | some rest2 =>
        rw [hrec] at h
        obtain rfl : Headless.Req.send i m :: rest2 = q2 := by simpa using h
        obtain ⟨c2, t2, pre, post, ha, hq, hr⟩ := ih rest2 hrec
        exact ⟨c2, t2, .send i m :: pre, post, ha, by simp [hq], by simp [hr]⟩
    | status i =>
      simp only [Headless.removeFirstCancel] at h
      cases hrec : Headless.removeFirstCancel rest active with
      | none => rw [hrec] at h; simp at h
      | some rest2 =>
        rw [hrec] at h
        obtain rfl : Headless.Req.status i :: rest2 = q2 := by simpa using h
        obtain ⟨c2, t2, pre, post, ha, hq, hr⟩ := ih rest2 hrec
        exact ⟨c2, t2, .status i :: pre, post, ha, by simp [hq], by simp [hr]⟩
    | shutdown i =>
      simp only [Headless.removeFirstCancel] at h
      cases hrec : Headless.removeFirstCancel rest active with
      | none => rw [hrec] at h; simp at h
      | some rest2 =>
        rw [hrec] at h
        obtain rfl : Headless.Req.shutdown i :: rest2 = q2 := by simpa using h
        obtain ⟨c2, t2, pre, post, ha, hq, hr⟩ := ih rest2 hrec
        exact ⟨c2, t2, .shutdown i :: pre, post, ha, by simp [hq],
          by simp [hr]⟩

/-- C10: handling a `cancel` writes no stdout line; its only state effect
is setting `cancelTargetId` to `activeId` when the target matches the
active send (directly via `handleCancel`, or by being dequeued by
`checkCancel` at an event boundary); session flag, conversation, journal
and the rest of the queue are unchanged. -/
theorem c10_cancel_frame (s : Headless.HState) (target : String)
    (q2 : List Headless.Req) :
    (Headless.handleCancel s target).2 = [] ∧
    ((Headless.handleCancel s target).1.hasSession = s.hasSession ∧
     (Headless.handleCancel s target).1.messages = s.messages ∧
     (Headless.handleCancel s target).1.journal = s.journal ∧
     (Headless.handleCancel s target).1.activeId = s.activeId ∧
     (Headless.handleCancel s target).1.queue = s.queue) ∧
    (s.activeId = some target →
      (Headless.handleCancel s target).1.cancelTargetId = s.activeId) ∧
    (s.activeId ≠ some target →
      (Headless.handleCancel s target).1 = s) ∧
    (Headless.removeFirstCancel s.queue s.activeId = some q2 →
      Headless.checkCancel s =
        (true, { s with cancelTargetId := s.activeId, queue := q2 }) ∧
      ∃ cid target2 pre post, s.activeId = some target2 ∧
        s.queue = pre ++ .cancel cid target2 :: post ∧ q2 = pre ++ post) ∧
    (Headless.removeFirstCancel s.queue s.activeId = none →
      Headless.checkCancel s = ((s.cancelTargetId == s.activeId), s)) := by
  refine ⟨?_, ?_, ?_, ?_, ?_, ?_⟩
  · unfold Headless.handleCancel
    split <;> rfl
  · unfold Headless.handleCancel
    split <;> simp
  · intro hmatch
    unfold Headless.handleCancel
    rw [if_pos hmatch]
  · intro hmatch
    unfold Headless.handleCancel
    rw [if_neg hmatch]
  · intro h
    refine ⟨?_, removeFirstCancel_some s.queue s.activeId q2 h⟩
    unfold Headless.checkCancel
    rw [h]
  · intro h
    unfold Headless.checkCancel
    rw [h]

/-- Witness for C10 at concrete states: a matching direct cancel, a
non-matching one, and a queued cancel dequeued by `checkCancel`. -/
theorem c10_cancel_frame_witness :
    Headless.handleCancel
        ⟨true, [], [], some "2", none, []⟩ "2"
      = (⟨true, [], [], some "2", some "2", []⟩, []) ∧
    Headless.handleCancel
        ⟨true, [], [], some "2", none, []⟩ "7"
      = (⟨true, [], [], some "2", none, []⟩, []) ∧
    Headless.checkCancel
        ⟨true, [], [], some "2", none,
          [.status "s", .cancel "9" "2", .status "t"]⟩
      = (true, ⟨true, [], [], some "2", some "2",
          [.status "s", .status "t"]⟩) := by
  have h1 := c10_cancel_frame ⟨true, [], [], some "2", none, []⟩ "2" []
  have h2 := c10_cancel_frame ⟨true, [], [], some "2", none, []⟩ "7" []
  have h3 := c10_cancel_frame
    ⟨true, [], [], some "2", none,
      [.status "s", .cancel "9" "2", .status "t"]⟩ "x"
    [.status "s", .status "t"]
  refine ⟨?_, ?_, ?_⟩
  · have ha := h1.2.2.1 rfl
    have hb := h1.1
    have hc := h1.2.1
    rcases hfc : Headless.handleCancel ⟨true, [], [], some "2", none, []⟩ "2"
      with ⟨s2, out⟩
    rw [hfc] at ha hb hc
    simp only at ha hb hc ⊢
    obtain ⟨c1, c2, c3, c4, c5⟩ := hc
    cases s2
    simp_all
  · have ha := h2.2.2.2.1 (by simp)
    have hb := h2.1
    rcases hfc : Headless.handleCancel ⟨true, [], [], some "2", none, []⟩ "7"
      with ⟨s2, out⟩
    rw [hfc] at ha hb
    simp_all
  · exact (h3.2.2.2.2.1 rfl).1

/-- Helper: the last element of `a :: (l ++ [x])` is `x`. -/
theorem getLast_cons_append_singleton {α : Type} (a x : α) (l : List α) :
    (a :: (l ++ [x])).getLast? = some x := by
  rw [← List.cons_append, List.getLast?_concat]

/-- Helper: structure of the send handler's action log.  The last action
is always clearing `activeId`; journal writes happen only on normal
generator completion, where they are exactly the conversation slice after
the user message, in order, emitted after the terminal `result` line. -/
theorem runSendSteps_actions (parse : String → Option Js.Val)
    (normalize : String → Headless.NormalizedError) (sendId : String)
    (userIdx : ℕ) :
    ∀ (steps : List Headless.LoopStep) (finish : Headless.LoopFinish)
      (s : Headless.HState) (acc : Headless.SendAcc),
      ((Headless.runSendSteps parse normalize sendId userIdx steps finish
          s acc).2.1.getLast? = some (.setActive none)) ∧
      ((Headless.runSendSteps parse normalize sendId userIdx steps finish
          s acc).2.2 = .completed →
        ∃ pre resultLine,
          (Headless.runSendSteps parse normalize sendId userIdx steps
            finish s acc).2.1
            = pre ++ Headless.Action.emit resultLine
              :: (((Headless.runSendSteps parse normalize sendId userIdx
                    steps finish s acc).1.messages.drop (userIdx + 1)).map
                  Headless.Action.journal
                ++ [Headless.Action.setActive none]) ∧
          pre.filter Headless.Action.isJournal = []) ∧
      ((Headless.runSendSteps parse normalize sendId userIdx steps finish
          s acc).2.2 ≠ .completed →
        (Headless.runSendSteps parse normalize sendId userIdx steps finish
          s acc).2.1.filter Headless.Action.isJournal = []) ∧
      ((Headless.runSendSteps parse normalize sendId userIdx steps finish
          s acc).2.2 ≠ .rejected) := by
  intro steps
  induction steps with
  | nil =>
    intro finish s acc
    cases finish with
    | done arrivals appends =>
      refine ⟨?_, fun _ => ⟨[], _, rfl, rfl⟩, fun hne => absurd rfl hne, ?_⟩
      · simp only [Headless.runSendSteps, Headless.finishSend]
        exact getLast_cons_append_singleton _ _ _
      · simp [Headless.runSendSteps, Headless.finishSend]
    | thrown arrivals appends raw =>
      refine ⟨rfl, fun habs => ?_, fun _ => rfl, ?_⟩
      · simp [Headless.runSendSteps] at habs
      · simp [Headless.runSendSteps]
  | cons step steps ih =>
    intro finish s acc
    by_cases hc : (Headless.checkCancel
        { s with
          queue := s.queue ++ step.arrivals,
          messages := s.messages ++ step.appends }).1 = true
    · have hcons : Headless.runSendSteps parse normalize sendId userIdx
          (step :: steps) finish s acc
          = ({ (Headless.checkCancel
                { s with
                  queue := s.queue ++ step.arrivals,
                  messages := s.messages ++ step.appends }).2 with
               activeId := none },
             [Headless.Action.emit (Headless.buildResult sendId "error"
                none acc.toolCallsMade none acc.iterations
                (some "cancelled")),
              Headless.Action.setActive none],
             .cancelled) := by
        simp only [Headless.runSendSteps, hc, if_true]
      rw [hcons]
      refine ⟨rfl, fun habs => ?_, fun _ => rfl, by simp⟩
      simp at habs
    · rcases hr : Headless.runSendSteps parse normalize sendId userIdx
          steps finish
          (Headless.checkCancel
            { s with
              queue := s.queue ++ step.arrivals,
              messages := s.messages ++ step.appends }).2
          (Headless.updateAcc parse acc step.event)
        with ⟨s2, acts2, out2⟩
      have hcons : Headless.runSendSteps parse normalize sendId userIdx
          (step :: steps) finish s acc
          = (s2,
             (match Headless.mapAgentEvent parse normalize step.event with
              | some we => [Headless.Action.emit (Headless.wrapEvent we)]
              | none => []) ++ acts2,
             out2) := by
        simp only [Headless.runSendSteps, hc, if_false, Bool.false_eq_true,
          hr]
      obtain ⟨ihLast, ihDone, ihNot, ihRej⟩ := ih finish
        (Headless.checkCancel
          { s with
            queue := s.queue ++ step.arrivals,
            messages := s.messages ++ step.appends }).2
        (Headless.updateAcc parse acc step.event)
      rw [hr] at ihLast ihDone ihNot ihRej
      simp only at ihLast ihDone ihNot ihRej
      have hemit : ∀ a ∈ (match Headless.mapAgentEvent parse normalize
            step.event with
          | some we => [Headless.Action.emit (Headless.wrapEvent we)]
          | none => ([] : List Headless.Action)),
          Headless.Action.isJournal a = false := by
        intro a ha
        cases hm : Headless.mapAgentEvent parse normalize step.event <;>
          rw [hm] at ha
        · simp at ha
        · simp at ha
          subst ha
          rfl
      rw [hcons]
      simp only
      refine ⟨?_, ?_, ?_, ihRej⟩
      · rw [List.getLast?_append, ihLast]
        rfl
      · intro hdone
        obtain ⟨pre, rl, heq, hfil⟩ := ihDone hdone
        refine ⟨(match Headless.mapAgentEvent parse normalize step.event with
          | some we => [Headless.Action.emit (Headless.wrapEvent we)]
          | none => []) ++ pre, rl, ?_, ?_⟩
        · rw [heq]
          simp
        · rw [List.filter_append, hfil, List.append_nil,
            List.filter_eq_nil_iff]
          intro a ha
          simp [hemit a ha]
      · intro hnot
        rw [List.filter_append, ihNot hnot, List.append_nil,
          List.filter_eq_nil_iff]
        intro a ha
        simp [hemit a ha]

/-- C1 counterexample: a `cancel` that arrives at the event boundary after
the loop has already appended an assistant message makes `handleSend`
clear `activeId` (last action) WITHOUT ever journaling that assistant
message, though it stays in the conversation — contradicting the claim
that every message appended during the send is journaled before
`activeId` is cleared, including on cancellation. -/
theorem c1_counterexample :
    (Agent.Message.assistant ⟨some "hi", [⟨"c1", ⟨"echo", ""⟩⟩]⟩
      ∈ (Headless.handleSend (fun _ => none)
          (fun raw => ⟨raw, "unknown_error", none, none⟩) "2" "hello"
          ⟨[⟨[], [.assistant ⟨some "hi", [⟨"c1", ⟨"echo", ""⟩⟩]⟩],
              .assistant_message ⟨some "hi", [⟨"c1", ⟨"echo", ""⟩⟩]⟩⟩,
            ⟨[.cancel "9" "2"], [], .tool_start "echo" ⟨"c1", ⟨"echo", ""⟩⟩⟩],
           .done [] []⟩
          ⟨true, [], [], none, none, []⟩).1.messages) ∧
    (Headless.Action.journal
        (.assistant ⟨some "hi", [⟨"c1", ⟨"echo", ""⟩⟩]⟩)
      ∉ (Headless.handleSend (fun _ => none)
          (fun raw => ⟨raw, "unknown_error", none, none⟩) "2" "hello"
          ⟨[⟨[], [.assistant ⟨some "hi", [⟨"c1", ⟨"echo", ""⟩⟩]⟩],
              .assistant_message ⟨some "hi", [⟨"c1", ⟨"echo", ""⟩⟩]⟩⟩,
            ⟨[.cancel "9" "2"], [], .tool_start "echo" ⟨"c1", ⟨"echo", ""⟩⟩⟩],
           .done [] []⟩
          ⟨true, [], [], none, none, []⟩).2.1) ∧
    ((Headless.handleSend (fun _ => none)
          (fun raw => ⟨raw, "unknown_error", none, none⟩) "2" "hello"
          ⟨[⟨[], [.assistant ⟨some "hi", [⟨"c1", ⟨"echo", ""⟩⟩]⟩],
              .assistant_message ⟨some "hi", [⟨"c1", ⟨"echo", ""⟩⟩]⟩⟩,
            ⟨[.cancel "9" "2"], [], .tool_start "echo" ⟨"c1", ⟨"echo", ""⟩⟩⟩],
           .done [] []⟩
          ⟨true, [], [], none, none, []⟩).2.1.getLast?
      = some (.setActive none)) := by
  refine ⟨?_, ?_, ?_⟩ <;> decide

/-- C1 amended: on a `send` accepted by the handler (session initialized,
no send in progress) the handler first sets `activeId`, journals the user
message, and its LAST action is always clearing `activeId`.  On normal
generator completion every message the loop appended after the user
message is journaled, in conversation order — but only AFTER the terminal
`result` line is emitted, with no other journal write before it.  On
cancellation or a thrown exception no loop-appended message is journaled
at all (only the user message is), and the request is never rejected. -/
theorem c1_amended_journal_order (parse : String → Option Js.Val)
    (normalize : String → Headless.NormalizedError)
    (sendId message : String) (trace : Headless.LoopTrace)
    (s : Headless.HState) (hsess : s.hasSession = true)
    (hact : s.activeId = none) :
    ∃ rest,
      (Headless.handleSend parse normalize sendId message trace s).2.1
        = Headless.Action.setActive (some sendId)
          :: Headless.Action.journal (.user message) :: rest ∧
      rest.getLast? = some (.setActive none) ∧
      ((Headless.handleSend parse normalize sendId message trace s).2.2
          = .completed →
        ∃ pre resultLine,
          rest = pre ++ Headless.Action.emit resultLine
            :: (((Headless.handleSend parse normalize sendId message trace
                  s).1.messages.drop (s.messages.length + 1)).map
                Headless.Action.journal
              ++ [Headless.Action.setActive none]) ∧
          pre.filter Headless.Action.isJournal = []) ∧
      ((Headless.handleSend parse normalize sendId message trace s).2.2
          ≠ .completed →
        rest.filter Headless.Action.isJournal = []) ∧
      (Headless.handleSend parse normalize sendId message trace s).2.2
        ≠ .rejected := by
  rcases hr : Headless.runSendSteps parse normalize sendId
      s.messages.length trace.steps trace.finish
      { s with
        activeId := some sendId,
        cancelTargetId := none,
        messages := s.messages ++ [Agent.Message.user message],
        journal := s.journal ++ [Agent.Message.user message] }
      Headless.initialSendAcc
    with ⟨s2, acts2, out2⟩
  have hs : Headless.handleSend parse normalize sendId message trace s
      = (s2,
         Headless.Action.setActive (some sendId)
           :: Headless.Action.journal (.user message) :: acts2,
         out2) := by
    rw [hsess] at hr
    simp only [Headless.handleSend, hsess, hact]
    simp only [Bool.true_eq_false, if_false, ne_eq, not_true_eq_false,
      not_false_eq_true, if_neg, ite_false]
    rw [hr]
  obtain ⟨hLast, hDone, hNot, hRej⟩ := runSendSteps_actions parse normalize
    sendId s.messages.length trace.steps trace.finish
    { s with
      activeId := some sendId,
      cancelTargetId := none,
      messages := s.messages ++ [Agent.Message.user message],
      journal := s.journal ++ [Agent.Message.user message] }
    Headless.initialSendAcc
  rw [hr] at hLast hDone hNot hRej
  simp only at hLast hDone hNot hRej
  rw [hs]
  exact ⟨acts2, rfl, hLast, hDone, hNot, hRej⟩

/-- Witness for the amended C1 theorem at a concrete accepted send. -/
theorem c1_amended_journal_order_witness :
    (⟨true, [], [], none, none, []⟩ : Headless.HState).hasSession = true ∧
    (⟨true, [], [], none, none, []⟩ : Headless.HState).activeId = none ∧
    (∃ rest,
      (Headless.handleSend (fun _ => none)
          (fun raw => ⟨raw, "e", none, none⟩) "2" "hello"
          ⟨[], .done [] []⟩ ⟨true, [], [], none, none, []⟩).2.1
        = Headless.Action.setActive (some "2")
          :: Headless.Action.journal (.user "hello") :: rest ∧
      rest.getLast? = some (.setActive none) ∧
      ((Headless.handleSend (fun _ => none)
            (fun raw => ⟨raw, "e", none, none⟩) "2" "hello"
            ⟨[], .done [] []⟩ ⟨true, [], [], none, none, []⟩).2.2
          = .completed →
        ∃ pre resultLine,
          rest = pre ++ Headless.Action.emit resultLine
            :: (((Headless.handleSend (fun _ => none)
                  (fun raw => ⟨raw, "e", none, none⟩) "2" "hello"
                  ⟨[], .done [] []⟩
                  ⟨true, [], [], none, none, []⟩).1.messages.drop
                  (([] : List Agent.Message).length + 1)).map
                Headless.Action.journal
              ++ [Headless.Action.setActive none]) ∧
          pre.filter Headless.Action.isJournal = []) ∧
      ((Headless.handleSend (fun _ => none)
            (fun raw => ⟨raw, "e", none, none⟩) "2" "hello"
            ⟨[], .done [] []⟩ ⟨true, [], [], none, none, []⟩).2.2
          ≠ .completed →
        rest.filter Headless.Action.isJournal = []) ∧
      (Headless.handleSend (fun _ => none)
          (fun raw => ⟨raw, "e", none, none⟩) "2" "hello"
          ⟨[], .done [] []⟩ ⟨true, [], [], none, none, []⟩).2.2
        ≠ .rejected) :=
  ⟨rfl, rfl,
   c1_amended_journal_order (fun _ => none)
     (fun raw => ⟨raw, "e", none, none⟩) "2" "hello"
     ⟨[], .done [] []⟩ ⟨true, [], [], none, none, []⟩ rfl rfl⟩

/-- Helper: `strConcat` distributes over list append. -/
theorem strConcat_append (xs ys : List String) :
    Agent.strConcat (xs ++ ys) = Agent.strConcat xs ++ Agent.strConcat ys := by
  induction xs with
  | nil => simp [Agent.strConcat]
  | cons x xs ih =>
    simp only [List.cons_append, Agent.strConcat, List.append_eq, ih,
      String.append_assoc]

/-- Helper: a non-truthy optional string contributes the empty string. -/
theorem strTruthy_false_getD (o : Option String)
    (h : Agent.strTruthy o = false) : o.getD "" = "" := by
  cases o with
  | none => rfl
  | some s =>
    simp only [Agent.strTruthy, bne_eq_false_iff_eq] at h
    simp [h]

/-- Helper: one fragment application, written with the per-field
contributions. -/
theorem applyDelta_eq (e : Agent.Entry) (tc : Agent.DeltaToolCall) :
    Agent.applyDeltaToolCall e tc
      = { id := if Agent.strTruthy tc.id then tc.id.getD "" else e.id,
          name := e.name ++ Agent.nameFragment tc,
          arguments := e.arguments ++ Agent.argumentFragment tc } := by
  cases hid : Agent.strTruthy tc.id <;>
    cases hn : Agent.strTruthy (tc.function.bind Agent.DeltaFunction.name) <;>
    cases ha : Agent.strTruthy
      (tc.function.bind Agent.DeltaFunction.arguments) <;>
    simp [Agent.applyDeltaToolCall, Agent.nameFragment,
      Agent.argumentFragment, hid, hn, ha, strTruthy_false_getD]

/-- Helper: the last non-empty id of a snoc. -/
theorem lastIdFrom_snoc (d : String) (fs : List Agent.DeltaToolCall)
    (tc : Agent.DeltaToolCall) :
    Agent.lastIdFrom d (fs ++ [tc])
      = if Agent.strTruthy tc.id then tc.id.getD ""
        else Agent.lastIdFrom d fs := by
  induction fs generalizing d with
  | nil => rfl
  | cons f fs ih =>
    simp only [List.cons_append, Agent.lastIdFrom]
    exact ih _

/-- Helper: accumulating one more fragment into a spec entry is exactly
one `applyDeltaToolCall`. -/
theorem specEntry_snoc (fs : List Agent.DeltaToolCall)
    (tc : Agent.DeltaToolCall) :
    Agent.specEntry (fs ++ [tc])
      = Agent.applyDeltaToolCall (Agent.specEntry fs) tc := by
  rw [applyDelta_eq]
  unfold Agent.specEntry
  rw [lastIdFrom_snoc, List.map_append, List.map_append, strConcat_append,
    strConcat_append]
  simp [Agent.strConcat]

/-- Helper: `firstOccs` keeps exactly the members. -/
theorem mem_firstOccs (l : List ℕ) (j : ℕ) :
    j ∈ Agent.firstOccs l ↔ j ∈ l := by
  induction l with
  | nil => simp [Agent.firstOccs]
  | cons i l ih =>
    simp only [Agent.firstOccs, List.mem_cons, List.mem_filter,
      decide_eq_true_eq, ih]
    constructor
    · rintro (rfl | ⟨h, _⟩)
      · exact Or.inl rfl
      · exact Or.inr h
    · rintro (rfl | h)
      · exact Or.inl rfl
      · by_cases hji : j = i
        · exact Or.inl hji
        · exact Or.inr ⟨h, by simpa using hji⟩

/-- Helper: `firstOccs` has no duplicates. -/
theorem firstOccs_nodup (l : List ℕ) : (Agent.firstOccs l).Nodup := by
  induction l with
  | nil => simp [Agent.firstOccs]
  | cons i l ih =>
    simp only [Agent.firstOccs, List.nodup_cons]
    refine ⟨?_, ih.filter _⟩
    intro hmem
    have := (List.mem_filter.mp hmem).2
    simp at this

/-- Helper: appending one value to the scanned list extends the
first-occurrence list iff the value is new. -/
theorem firstOccs_snoc (l : List ℕ) (x : ℕ) :
    Agent.firstOccs (l ++ [x])
      = if x ∈ l then Agent.firstOccs l else Agent.firstOccs l ++ [x] := by
  induction l with
  | nil => simp [Agent.firstOccs]
  | cons i l ih =>
    rw [List.cons_append]
    show Agent.firstOccs (i :: (l ++ [x])) = _
    rw [Agent.firstOccs, ih]
    by_cases hxl : x ∈ l
    · simp [hxl, Agent.firstOccs]
    · by_cases hxi : x = i
      · subst hxi
        simp [hxl, List.filter_append, Agent.firstOccs]
      · have hcond : ¬(x = i ∨ x ∈ l) := by
          rintro (h | h)
          · exact hxi h
          · exact hxl h
        rw [if_neg hxl]
        simp only [List.mem_cons, hcond, if_neg, not_false_eq_true]
        rw [List.filter_append]
        simp [Agent.firstOccs, Ne.symm hxi, hcond, hxi]

/-- Helper: no fragment addresses an index that is absent from the index
list. -/
theorem filter_idx_eq_nil (l : List Agent.DeltaToolCall) (idx : ℕ)
    (h : idx ∉ l.map Agent.DeltaToolCall.index) :
    l.filter (fun tc => tc.index = idx) = [] := by
  rw [List.filter_eq_nil_iff]
  intro tc htc
  simp only [decide_eq_true_eq]
  intro hcontra
  exact h (hcontra ▸ List.mem_map_of_mem Agent.DeltaToolCall.index htc)

/-- Helper: upserting into an association list given as a map over
distinct keys either updates the addressed key in place or appends a
fresh entry. -/
theorem upsert_map (l : List ℕ) (hnd : l.Nodup) (f : ℕ → Agent.Entry)
    (tc : Agent.DeltaToolCall) :
    Agent.upsertEntry (l.map (fun i => (i, f i))) tc
      = if tc.index ∈ l
        then l.map (fun i =>
          (i, if i = tc.index then Agent.applyDeltaToolCall (f i) tc
              else f i))
        else l.map (fun i => (i, f i))
          ++ [(tc.index, Agent.applyDeltaToolCall ⟨"", "", ""⟩ tc)] := by
  induction l with
  | nil => simp [Agent.upsertEntry]
  | cons j l ih =>
    simp only [List.map_cons, Agent.upsertEntry, List.mem_cons,
      List.nodup_cons] at hnd ⊢
    by_cases hj : j = tc.index
    · subst hj
      have hcond : tc.index = tc.index ∨ tc.index ∈ l := Or.inl rfl
      simp only [hcond, if_true, ite_true, eq_self_iff_true, if_pos]
      congr 1
      apply List.map_congr_left
      intro i hi
      have hne : i ≠ tc.index := fun hcontra => hnd.1 (hcontra ▸ hi)
      simp [hne]
    · rw [if_neg hj, ih hnd.2]
      have hne : ¬ tc.index = j := fun h => hj h.symm
      by_cases hx : tc.index ∈ l
      · simp [hx, hj]
      · simp [hx, hne, hj]

/-- Helper: the whole upsert fold of an iteration's fragments — one entry
per used index in first-occurrence order, each accumulating exactly its
own fragments. -/
theorem foldl_upsert_full (l : List Agent.DeltaToolCall) :
    l.foldl Agent.upsertEntry []
      = (Agent.firstOccs (l.map Agent.DeltaToolCall.index)).map
          (fun i =>
            (i, Agent.specEntry (l.filter (fun tc => tc.index = i)))) := by
  induction l using List.reverseRecOn with
  | nil => rfl
  | append_singleton l tc ih =>
    rw [List.foldl_append, List.foldl_cons, List.foldl_nil, ih,
      upsert_map _ (firstOccs_nodup _) _ tc, List.map_append]
    simp only [List.map_cons, List.map_nil]
    rw [firstOccs_snoc]
    by_cases hmem : tc.index ∈ l.map Agent.DeltaToolCall.index
    · rw [if_pos ((mem_firstOccs _ _).mpr hmem), if_pos hmem]
      apply List.map_congr_left
      intro i hi
      by_cases hitc : i = tc.index
      · subst hitc
        rw [if_pos rfl, List.filter_append]
        have hsingle : [tc].filter (fun tc2 => tc2.index = tc.index)
            = [tc] := by
          simp
        rw [hsingle, specEntry_snoc]
      · rw [if_neg hitc, List.filter_append]
        have hne : tc.index ≠ i := fun h => hitc h.symm
        have hsingle : [tc].filter (fun tc2 => tc2.index = i) = [] := by
          simp [hne]
        rw [hsingle, List.append_nil]
    · rw [if_neg (fun h => hmem ((mem_firstOccs _ _).mp h)), if_neg hmem,
        List.map_append]
      congr 1
      · apply List.map_congr_left
        intro i hi
        have hne : tc.index ≠ i := by
          intro hcontra
          exact hmem (hcontra ▸ (mem_firstOccs _ _).mp hi)
        rw [List.filter_append]
        have hsingle : [tc].filter (fun tc2 => tc2.index = i) = [] := by
          simp [hne]
        rw [hsingle, List.append_nil]
      · simp only [List.map_cons, List.map_nil]
        rw [List.filter_append, filter_idx_eq_nil l tc.index hmem]
        have hsingle : [tc].filter (fun tc2 => tc2.index = tc.index)
            = [tc] := by
          simp
        rw [hsingle, List.nil_append]
        have hone : Agent.specEntry [tc]
            = Agent.applyDeltaToolCall ⟨"", "", ""⟩ tc := by
          have h0 := specEntry_snoc [] tc
          simpa using h0
        rw [hone]

/-- Helper: one chunk appends its (possibly empty) content fragment. -/
theorem processChunk_contentParts (st : Agent.StreamState)
    (c : Agent.Chunk) :
    (Agent.processChunk st c).1.contentParts
      = st.contentParts
        ++ (match c.choices.head? with
            | some ch => ch.delta.content.getD ""
            | none => "") := by
  rcases hh : c.choices.head? with _ | ch
  · simp [Agent.processChunk, hh]
  · simp only [Agent.processChunk, hh]
    by_cases htr : Agent.strTruthy ch.delta.content = true
    · simp [htr]
    · rw [Bool.not_eq_true] at htr
      simp [htr, strTruthy_false_getD _ htr]

/-- Helper: one chunk folds its (possibly empty) tool-call fragment list
into the entries. -/
theorem processChunk_entries (st : Agent.StreamState) (c : Agent.Chunk) :
    (Agent.processChunk st c).1.entries
      = (match c.choices.head? with
         | some ch => ch.delta.tool_calls
         | none => []).foldl Agent.upsertEntry st.entries := by
  rcases hh : c.choices.head? with _ | ch
  · simp [Agent.processChunk, hh]
  · simp [Agent.processChunk, hh]

/-- Helper: the assembled content is the starting prefix plus the
concatenation of the iteration's content fragments, in arrival order. -/
theorem assembleFrom_contentParts (chunks : List Agent.Chunk)
    (st : Agent.StreamState) :
    (Agent.assembleIterationFrom st chunks).1.contentParts
      = st.contentParts
        ++ Agent.strConcat (Agent.contentFragments chunks) := by
  induction chunks generalizing st with
  | nil =>
    simp [Agent.assembleIterationFrom, Agent.contentFragments,
      Agent.strConcat]
  | cons c rest ih =>
    simp only [Agent.assembleIterationFrom]
    rw [ih, processChunk_contentParts]
    simp only [Agent.contentFragments, List.map_cons, Agent.strConcat]
    rw [String.append_assoc]

/-- Helper: the assembled entries are the fold of all the iteration's
tool-call fragments, in arrival order. -/
theorem assembleFrom_entries (chunks : List Agent.Chunk)
    (st : Agent.StreamState) :
    (Agent.assembleIterationFrom st chunks).1.entries
      = (Agent.fragmentsOf chunks).foldl Agent.upsertEntry st.entries := by
  induction chunks generalizing st with
  | nil => rfl
  | cons c rest ih =>
    simp only [Agent.assembleIterationFrom]
    rw [ih, processChunk_entries, Agent.fragmentsOf, List.foldl_append]

/-- C4: for every streaming iteration the assembled assistant message has
content equal to the in-order concatenation of the iteration's
`delta.content` fragments (`null` when that concatenation is empty), and
tool calls equal to one entry per used index, sorted by index, whose
name/arguments are the in-order concatenations of that index's fragments
and whose id is the last non-empty id fragment received. -/
theorem c4_stream_assembly (chunks : List Agent.Chunk) :
    Agent.assembledMessage chunks
      = { content := Agent.specStreamContent chunks,
          tool_calls := Agent.specStreamToolCalls chunks } := by
  have hc : (Agent.assembleIteration chunks).1.contentParts
      = Agent.strConcat (Agent.contentFragments chunks) := by
    rw [Agent.assembleIteration, assembleFrom_contentParts]
    rfl
  have he : (Agent.assembleIteration chunks).1.entries
      = (Agent.fragmentsOf chunks).foldl Agent.upsertEntry [] := by
    rw [Agent.assembleIteration, assembleFrom_entries]
    rfl
  unfold Agent.assembledMessage Agent.specStreamContent
  dsimp only []
  rw [hc]
  congr 1
  unfold Agent.assembledToolCallList Agent.sortEntries
  rw [he, foldl_upsert_full]
  have hcomp : ∀ a ∈ Agent.firstOccs
        ((Agent.fragmentsOf chunks).map Agent.DeltaToolCall.index),
      ∀ b ∈ Agent.firstOccs
        ((Agent.fragmentsOf chunks).map Agent.DeltaToolCall.index),
      (fun x y : ℕ => decide (x ≤ y)) a b
        = (fun p q : ℕ × Agent.Entry => decide (p.1 ≤ q.1))
            ((fun i => (i, Agent.specEntry
              ((Agent.fragmentsOf chunks).filter
                (fun tc => tc.index = i)))) a)
            ((fun i => (i, Agent.specEntry
              ((Agent.fragmentsOf chunks).filter
                (fun tc => tc.index = i)))) b) :=
    fun a _ b _ => rfl
  rw [← List.map_mergeSort hcomp, List.map_map]
  unfold Agent.specStreamToolCalls Agent.specSortedIndices
  apply List.map_congr_left
  intro i hi
  rfl

/-- Helper: a key no rule assigns stays absent from the result. -/
theorem applyRules_get_notmem (rules : List Overrides.FieldRule)
    (raw : Js.ValObj) (k : String) (h : ∀ r ∈ rules, r.key ≠ k) :
    (Overrides.applyRules raw rules).get k = .undef := by
  induction rules with
  | nil => rfl
  | cons rule rest ih =>
    rw [Overrides.applyRules]
    rcases hacc : rule.accept (raw.get rule.key) with _ | v
    · exact ih (fun r hr => h r (List.mem_cons_of_mem _ hr))
    · rw [Js.ValObj.get, if_neg (h rule (List.mem_cons_self _ _))]
      exact ih (fun r hr => h r (List.mem_cons_of_mem _ hr))

/-- Helper: the rules read only their own keys. -/
theorem applyRules_congr (rules : List Overrides.FieldRule)
    (o1 o2 : Js.ValObj) (h : ∀ r ∈ rules, o1.get r.key = o2.get r.key) :
    Overrides.applyRules o1 rules = Overrides.applyRules o2 rules := by
  induction rules with
  | nil => rfl
  | cons rule rest ih =>
    rw [Overrides.applyRules, Overrides.applyRules,
      h rule (List.mem_cons_self _ _)]
    rcases hacc : rule.accept (o2.get rule.key) with _ | v
    · exact ih (fun r hr => h r (List.mem_cons_of_mem _ hr))
    · rw [ih (fun r hr => h r (List.mem_cons_of_mem _ hr))]

/-- Helper: a pipeline of stable, `undefined`-rejecting rules with
distinct keys is idempotent. -/
theorem applyRules_idem (rules : List Overrides.FieldRule)
    (hstab : ∀ r ∈ rules, Overrides.Stable r.accept)
    (hundef : ∀ r ∈ rules, r.accept .undef = none)
    (hnodup : (rules.map Overrides.FieldRule.key).Nodup) (raw : Js.ValObj) :
    Overrides.applyRules (Overrides.applyRules raw rules) rules
      = Overrides.applyRules raw rules := by
  induction rules with
  | nil => rfl
  | cons rule rest ih =>
    simp only [List.map_cons, List.nodup_cons] at hnodup
    have hkey : ∀ r ∈ rest, rule.key ≠ r.key := by
      intro r hr hcontra
      exact hnodup.1 (hcontra ▸ List.mem_map_of_mem _ hr)
    have ihr := ih (fun r hr => hstab r (List.mem_cons_of_mem _ hr))
      (fun r hr => hundef r (List.mem_cons_of_mem _ hr)) hnodup.2
    rcases hacc : rule.accept (raw.get rule.key) with _ | v
    · have hR : Overrides.applyRules raw (rule :: rest)
          = Overrides.applyRules raw rest := by
        rw [Overrides.applyRules, hacc]
      rw [hR, Overrides.applyRules,
        applyRules_get_notmem rest raw rule.key
          (fun r hr => (hkey r hr).symm),
        hundef rule (List.mem_cons_self _ _)]
      exact ihr
    · have hR : Overrides.applyRules raw (rule :: rest)
          = .cons rule.key v (Overrides.applyRules raw rest) := by
        rw [Overrides.applyRules, hacc]
      rw [hR, Overrides.applyRules, Js.ValObj.get, if_pos rfl,
        hstab rule (List.mem_cons_self _ _) _ _ hacc]
      have hrest : Overrides.applyRules
          (Js.ValObj.cons rule.key v (Overrides.applyRules raw rest)) rest
          = Overrides.applyRules raw rest := by
        rw [applyRules_congr rest _ (Overrides.applyRules raw rest)
          (fun r hr => by rw [Js.ValObj.get, if_neg (hkey r hr)])]
        exact ihr
      exact congrArg (Js.ValObj.cons rule.key v) hrest

/-- Helper: a filter that passes values through unchanged is stable. -/
theorem stable_of_preserving (accept : Js.Val → Option Js.Val)
    (h : ∀ v w, accept v = some w → w = v) : Overrides.Stable accept := by
  intro v w hvw
  have hw := h v w hvw
  subst hw
  exact hvw

/-- Helper: `acceptString` passes values through unchanged. -/
theorem acceptString_pres :
    ∀ v w, Overrides.acceptString v = some w → w = v := by
  intro v w h
  cases v <;> simp only [Overrides.acceptString] at h <;>
    first
      | exact Option.noConfusion h
      | (split at h <;> simp_all)
      | simp_all

/-- Helper: `acceptSessionId` passes values through unchanged. -/
theorem acceptSessionId_pres :
    ∀ v w, Overrides.acceptSessionId v = some w → w = v := by
  intro v w h
  cases v <;> simp only [Overrides.acceptSessionId] at h <;>
    first
      | exact Option.noConfusion h
      | (split at h <;> simp_all)
      | simp_all

/-- Helper: `acceptRoute` passes values through unchanged. -/
theorem acceptRoute_pres :
    ∀ v w, Overrides.acceptRoute v = some w → w = v := by
  intro v w h
  cases v <;> simp only [Overrides.acceptRoute] at h <;>
    first
      | exact Option.noConfusion h
      | (split at h <;> simp_all)
      | simp_all

/-- Helper: `acceptStringArray` passes values through unchanged. -/
theorem acceptStringArray_pres :
    ∀ v w, Overrides.acceptStringArray v = some w → w = v := by
  intro v w h
  cases v <;> simp only [Overrides.acceptStringArray] at h <;>
    first
      | exact Option.noConfusion h
      | (split at h <;> simp_all)
      | simp_all

/-- Helper: `acceptTemperature` passes values through unchanged. -/
theorem acceptTemperature_pres :
    ∀ v w, Overrides.acceptTemperature v = some w → w = v := by
  intro v w h
  cases v <;> simp only [Overrides.acceptTemperature] at h <;>
    first
      | exact Option.noConfusion h
      | (split at h <;> simp_all)
      | simp_all

/-- Helper: `acceptPosInt` passes values through unchanged. -/
theorem acceptPosInt_pres :
    ∀ v w, Overrides.acceptPosInt v = some w → w = v := by
  intro v w h
  cases v <;> simp only [Overrides.acceptPosInt] at h <;>
    first
      | exact Option.noConfusion h
      | (split at h <;> simp_all)
      | simp_all

/-- Helper: `acceptNumber` passes values through unchanged. -/
theorem acceptNumber_pres :
    ∀ v w, Overrides.acceptNumber v = some w → w = v := by
  intro v w h
  cases v <;> simp only [Overrides.acceptNumber] at h <;>
    first
      | exact Option.noConfusion h
      | (split at h <;> simp_all)
      | simp_all

/-- Helper: `acceptStop` passes values through unchanged. -/
theorem acceptStop_pres :
    ∀ v w, Overrides.acceptStop v = some w → w = v := by
  intro v w h
  cases v <;> simp only [Overrides.acceptStop] at h <;>
    first
      | exact Option.noConfusion h
      | (split at h <;> simp_all)
      | simp_all

/-- Helper: `acceptEffort` passes values through unchanged. -/
theorem acceptEffort_pres :
    ∀ v w, Overrides.acceptEffort v = some w → w = v := by
  intro v w h
  cases v <;> simp only [Overrides.acceptEffort] at h <;>
    first
      | exact Option.noConfusion h
      | (split at h <;> simp_all)
      | simp_all

/-- Helper: `acceptBool` passes values through unchanged. -/
theorem acceptBool_pres :
    ∀ v w, Overrides.acceptBool v = some w → w = v := by
  intro v w h
  cases v <;> simp only [Overrides.acceptBool] at h <;>
    first
      | exact Option.noConfusion h
      | (split at h <;> simp_all)
      | simp_all

/-- Helper: `acceptSummary` passes values through unchanged. -/
theorem acceptSummary_pres :
    ∀ v w, Overrides.acceptSummary v = some w → w = v := by
  intro v w h
  cases v <;> simp only [Overrides.acceptSummary] at h <;>
    first
      | exact Option.noConfusion h
      | (split at h <;> simp_all)
      | simp_all

/-- Helper: `acceptObjectOrArray` passes values through unchanged. -/
theorem acceptObjectOrArray_pres :
    ∀ v w, Overrides.acceptObjectOrArray v = some w → w = v := by
  intro v w h
  cases v <;> simp only [Overrides.acceptObjectOrArray] at h <;>
    first
      | exact Option.noConfusion h
      | (split at h <;> simp_all)
      | simp_all

/-- Helper: `acceptArray` passes values through unchanged. -/
theorem acceptArray_pres :
    ∀ v w, Overrides.acceptArray v = some w → w = v := by
  intro v w h
  cases v <;> simp only [Overrides.acceptArray] at h <;>
    first
      | exact Option.noConfusion h
      | (split at h <;> simp_all)
      | simp_all

/-- Helper: `acceptDefined` passes values through unchanged. -/
theorem acceptDefined_pres :
    ∀ v w, Overrides.acceptDefined v = some w → w = v := by
  intro v w h
  cases v <;> simp only [Overrides.acceptDefined] at h <;>
    first
      | exact Option.noConfusion h
      | (split at h <;> simp_all)
      | simp_all

/-- Helper: `acceptObject` passes values through unchanged. -/
theorem acceptObject_pres :
    ∀ v w, Overrides.acceptObject v = some w → w = v := by
  intro v w h
  cases v <;> simp only [Overrides.acceptObject] at h <;>
    first
      | exact Option.noConfusion h
      | (split at h <;> simp_all)
      | simp_all

/-- Helper: reading `effort` back from the rebuilt reasoning object. -/
theorem reasoningCore_get_effort (e m x su : Js.Val) :
    (Overrides.reasoningCore e m x su).get "effort"
      = (Overrides.acceptEffort e).getD .undef := by
  rcases h1 : Overrides.acceptEffort e with _ | v1 <;>
    rcases h2 : Overrides.acceptPosInt m with _ | v2 <;>
    rcases h3 : Overrides.acceptBool x with _ | v3 <;>
    rcases h4 : Overrides.acceptSummary su with _ | v4 <;>
    simp [Overrides.reasoningCore, Overrides.optCons, h1, h2, h3, h4,
      Js.ValObj.get]

/-- Helper: reading `max_tokens` back from the rebuilt reasoning
object. -/
theorem reasoningCore_get_max_tokens (e m x su : Js.Val) :
    (Overrides.reasoningCore e m x su).get "max_tokens"
      = (Overrides.acceptPosInt m).getD .undef := by
  rcases h1 : Overrides.acceptEffort e with _ | v1 <;>
    rcases h2 : Overrides.acceptPosInt m with _ | v2 <;>
    rcases h3 : Overrides.acceptBool x with _ | v3 <;>
    rcases h4 : Overrides.acceptSummary su with _ | v4 <;>
    simp [Overrides.reasoningCore, Overrides.optCons, h1, h2, h3, h4,
      Js.ValObj.get]

/-- Helper: reading `excluded` back from the rebuilt reasoning object. -/
theorem reasoningCore_get_excluded (e m x su : Js.Val) :
    (Overrides.reasoningCore e m x su).get "excluded"
      = (Overrides.acceptBool x).getD .undef := by
  rcases h1 : Overrides.acceptEffort e with _ | v1 <;>
    rcases h2 : Overrides.acceptPosInt m with _ | v2 <;>
    rcases h3 : Overrides.acceptBool x with _ | v3 <;>
    rcases h4 : Overrides.acceptSummary su with _ | v4 <;>
    simp [Overrides.reasoningCore, Overrides.optCons, h1, h2, h3, h4,
      Js.ValObj.get]

/-- Helper: reading `summary` back from the rebuilt reasoning object. -/
theorem reasoningCore_get_summary (e m x su : Js.Val) :
    (Overrides.reasoningCore e m x su).get "summary"
      = (Overrides.acceptSummary su).getD .undef := by
  rcases h1 : Overrides.acceptEffort e with _ | v1 <;>
    rcases h2 : Overrides.acceptPosInt m with _ | v2 <;>
    rcases h3 : Overrides.acceptBool x with _ | v3 <;>
    rcases h4 : Overrides.acceptSummary su with _ | v4 <;>
    simp [Overrides.reasoningCore, Overrides.optCons, h1, h2, h3, h4,
      Js.ValObj.get]

/-- Helper: re-filtering a rebuilt `effort` value changes nothing. -/
theorem acceptEffort_rematch (e : Js.Val) :
    Overrides.acceptEffort ((Overrides.acceptEffort e).getD .undef)
      = Overrides.acceptEffort e := by
  rcases h : Overrides.acceptEffort e with _ | v
  · rfl
  · exact stable_of_preserving _ acceptEffort_pres _ _ h

/-- Helper: re-filtering a rebuilt `max_tokens` value changes nothing. -/
theorem acceptPosInt_rematch (m : Js.Val) :
    Overrides.acceptPosInt ((Overrides.acceptPosInt m).getD .undef)
      = Overrides.acceptPosInt m := by
  rcases h : Overrides.acceptPosInt m with _ | v
  · rfl
  · exact stable_of_preserving _ acceptPosInt_pres _ _ h

/-- Helper: re-filtering a rebuilt `excluded` value changes nothing. -/
theorem acceptBool_rematch (x : Js.Val) :
    Overrides.acceptBool ((Overrides.acceptBool x).getD .undef)
      = Overrides.acceptBool x := by
  rcases h : Overrides.acceptBool x with _ | v
  · rfl
  · exact stable_of_preserving _ acceptBool_pres _ _ h

/-- Helper: re-filtering a rebuilt `summary` value changes nothing. -/
theorem acceptSummary_rematch (su : Js.Val) :
    Overrides.acceptSummary ((Overrides.acceptSummary su).getD .undef)
      = Overrides.acceptSummary su := by
  rcases h : Overrides.acceptSummary su with _ | v
  · rfl
  · exact stable_of_preserving _ acceptSummary_pres _ _ h

/-- Helper: the reasoning filter is stable — a rebuilt reasoning object
re-validates to itself. -/
theorem acceptReasoning_stable :
    Overrides.Stable Overrides.acceptReasoning := by
  intro v w h
  cases v <;> simp only [Overrides.acceptReasoning] at h <;>
    try exact Option.noConfusion h
  case obj o =>
    split at h
    case isTrue hcond =>
      have hw := Option.some.inj h
      subst hw
      simp only [Overrides.acceptReasoning]
      rw [reasoningCore_get_effort, reasoningCore_get_max_tokens,
        reasoningCore_get_excluded, reasoningCore_get_summary]
      simp only [Overrides.hasReasoningField, Overrides.reasoningCore]
      have hcond2 := hcond
      simp only [Overrides.hasReasoningField] at hcond2
      rw [acceptEffort_rematch, acceptPosInt_rematch, acceptBool_rematch,
        acceptSummary_rematch, if_pos hcond2]
    case isFalse hcond => exact Option.noConfusion h

/-- C9: `validateOverrides` is idempotent — every field value that
survives one filtering pass (strings, ranged numbers, positive-integer
token counts, bounded session ids, the rebuilt reasoning block, and the
structural pass-throughs) survives a second pass unchanged, so
re-validating a validated overrides object is the identity. -/
theorem c9_validate_overrides_idempotent (raw : Js.ValObj) :
    Overrides.validateOverrides (Overrides.validateOverrides raw)
      = Overrides.validateOverrides raw := by
  apply applyRules_idem
  · intro r hr
    fin_cases hr
    · exact stable_of_preserving _ acceptString_pres
    · exact stable_of_preserving _ acceptSessionId_pres
    · exact stable_of_preserving _ acceptRoute_pres
    · exact stable_of_preserving _ acceptStringArray_pres
    · exact stable_of_preserving _ acceptTemperature_pres
    · exact stable_of_preserving _ acceptPosInt_pres
    · exact stable_of_preserving _ acceptNumber_pres
    · exact stable_of_preserving _ acceptNumber_pres
    · exact stable_of_preserving _ acceptNumber_pres
    · exact stable_of_preserving _ acceptNumber_pres
    · exact stable_of_preserving _ acceptStop_pres
    · exact acceptReasoning_stable
    · exact stable_of_preserving _ acceptObjectOrArray_pres
    · exact stable_of_preserving _ acceptArray_pres
    · exact stable_of_preserving _ acceptDefined_pres
    · exact stable_of_preserving _ acceptArray_pres
    · exact stable_of_preserving _ acceptObject_pres
    · exact stable_of_preserving _ acceptObject_pres
  · intro r hr
    fin_cases hr <;> rfl
  · decide
